import Mathlib

/-!
Shallow embedding of the Library-Management-System core (src/book.py,
src/user.py, src/data_structures.py, src/library.py, src/recommendation.py)
and proofs about its borrow/return state machine, FIFO request queue,
interaction graph BFS and recommendation scorer.

Modelling conventions:
* Python dicts become association lists with string keys (`dictGet`/`dictSet`);
  all operations below keep keys unique, and lookups take the first binding.
* Python sets of strings become lists where only membership matters
  (`setInsert` adds, `List.filter` removes).
* Python ints are `Int`.
* A raised exception is `none` (`Option`): in every such spot the source
  raises before mutating anything, so the observable state at the raise
  equals the input state.
-/

namespace LibraryMS

/-- Lookup in an association list modelling a Python dict (`d.get(k)`):
first binding for the key, if any. -/
def dictGet {α : Type} : List (String × α) → String → Option α
  | [], _ => none
  | p :: m, k => if p.1 = k then some p.2 else dictGet m k

/-- Value update for a key in an association list (`d[k] = v` on a key that is
present; bindings for other keys are untouched). -/
def dictSet {α : Type} : List (String × α) → String → α → List (String × α)
  | [], _, _ => []
  | p :: m, k, v => if p.1 = k then (k, v) :: dictSet m k v else p :: dictSet m k v

/-- Insertion into a list modelling a Python set (`s.add(x)`): no duplicate
is created; insertion position is irrelevant since only membership matters. -/
def setInsert (x : String) (l : List String) : List String :=
  if x ∈ l then l else l ++ [x]

/-- `str.lower()`, modelled characterwise over the string's characters
(ASCII case mapping; the kernel can evaluate this form, unlike
`String.toLower`, and it matches Python on the ASCII data used here). -/
def strLower (s : String) : String := ⟨s.data.map Char.toLower⟩

/-- `str.startswith(p)`, characterwise. -/
def strStartsWith (s p : String) : Bool := s.data.take p.data.length == p.data

/-- `str[n:]` for a character count `n`, characterwise. -/
def strDrop (s : String) (n : Nat) : String := ⟨s.data.drop n⟩

/-- `Book` (src/book.py): the dataclass fields, base-class fields included.
`available_copies` is the source field `_available_copies` (the
`available_copies` property returns it unchanged). -/
structure Book where
  item_id : String
  title : String
  author : String
  genre : String
  total_copies : Int
  available_copies : Int
  borrow_count : Int
deriving DecidableEq, Repr

/-- `Book.__post_init__` (with `LibraryItem.__post_init__` inlined first, as
`super().__post_init__()` runs first): `none` models a raised `ValueError`;
an out-of-range `_available_copies` is clamped to `total_copies`. -/
def Book.post_init (b : Book) : Option Book :=
  if b.item_id = "" ∨ b.title = "" ∨ b.author = "" then none
  else if b.total_copies < 0 then none
  else
    let b := if b.available_copies < 0 ∨ b.available_copies > b.total_copies
      then { b with available_copies := b.total_copies } else b
    if b.genre = "" then none else some b

/-- `Book.can_borrow`. -/
def Book.can_borrow (b : Book) : Bool := b.available_copies > 0

/-- `Book.borrow_one`; `none` models the `ValueError` raised when no copy is
available (raised before any field is mutated). -/
def Book.borrow_one (b : Book) : Option Book :=
  if b.available_copies ≤ 0 then none
  else some { b with available_copies := b.available_copies - 1,
                     borrow_count := b.borrow_count + 1 }

/-- `Book.return_one`; `none` models the `ValueError` "All copies already
returned" (raised before any field is mutated). -/
def Book.return_one (b : Book) : Option Book :=
  if b.available_copies ≥ b.total_copies then none
  else some { b with available_copies := b.available_copies + 1 }

/-- `User` (src/user.py). `borrowed_books` models a Python set (membership
only); `history` is the append-only list. -/
structure User where
  user_id : String
  name : String
  interests : List String
  borrowed_books : List String
  history : List String
deriving DecidableEq, Repr

/-- `User.__post_init__`: requires a nonempty id and name, and normalizes
interests to stripped lowercase, dropping whitespace-only entries. -/
def User.post_init (u : User) : Option User :=
  if u.user_id = "" ∨ u.name = "" then none
  else some { u with interests :=
    (u.interests.filter (fun s => s.trim != "")).map (fun s => strLower s.trim) }

/-- `User.borrow`: add to the borrowed set and append to history. -/
def User.borrow (u : User) (book_id : String) : User :=
  { u with borrowed_books := setInsert book_id u.borrowed_books,
           history := u.history ++ [book_id] }

/-- `User.return_book`: `borrowed_books.discard(book_id)`. -/
def User.return_book (u : User) (book_id : String) : User :=
  { u with borrowed_books := u.borrowed_books.filter (fun x => x != book_id) }

/-- `Graph` (src/data_structures.py): adjacency dict from node to its
neighbor set (a list where only membership matters). -/
structure Graph where
  adj : List (String × List String)
deriving DecidableEq, Repr

/-- `self._adj.get(node)`. -/
def Graph.adjOf (g : Graph) (n : String) : Option (List String) := dictGet g.adj n

/-- `Graph.add_node`: `setdefault(node, set())`. -/
def Graph.add_node (g : Graph) (n : String) : Graph :=
  match g.adjOf n with
  | some _ => g
  | none => { adj := g.adj ++ [(n, [])] }

/-- `self._adj[a].add(b)` for a key `a` that is present (`add_edge` creates
both keys before calling this). -/
def Graph.adjInsert (g : Graph) (a b : String) : Graph :=
  { adj := dictSet g.adj a (setInsert b ((g.adjOf a).getD [])) }

/-- `Graph.add_edge`: no self-loops; ensures both nodes then inserts both
directions. -/
def Graph.add_edge (g : Graph) (a b : String) : Graph :=
  if a = b then g
  else (((g.add_node a).add_node b).adjInsert a b).adjInsert b a

/-- `Graph.neighbors`, as a list: neighbor set of the node, empty if absent. -/
def Graph.neighborsOf (g : Graph) (n : String) : List String := (g.adjOf n).getD []

/-- `node in graph` (`__contains__`). -/
def Graph.containsNode (g : Graph) (n : String) : Bool := (g.adjOf n).isSome

/-- `Library` (src/library.py): book and user dicts, the FIFO borrow-request
queue (front of the list = front of the queue, matching the linked list whose
`dequeue` pops the head and whose `enqueue` appends at the tail), and the
user-book interaction graph. -/
structure Library where
  books : List (String × Book)
  users : List (String × User)
  borrow_requests : List (String × String)
  user_book_graph : Graph
deriving DecidableEq, Repr

/-- `Library.__init__`. -/
def Library.empty : Library := ⟨[], [], [], ⟨[]⟩⟩

/-- `Library.add_book`: merge copy counts onto an existing record with the
same id, else insert the book and register its graph node. -/
def Library.add_book (L : Library) (book : Book) : Library :=
  match dictGet L.books book.item_id with
  | some existing =>
      let merged : Book :=
        { existing with
            total_copies := existing.total_copies + book.total_copies,
            available_copies := existing.available_copies + book.available_copies }
      { L with books := dictSet L.books book.item_id merged }
  | none =>
      { L with books := L.books ++ [(book.item_id, book)],
               user_book_graph := L.user_book_graph.add_node ("book:" ++ book.item_id) }

/-- `Library.remove_book`: `books.pop(book_id, None)`, reporting whether the
id existed. -/
def Library.remove_book (L : Library) (book_id : String) : Library × Bool :=
  match dictGet L.books book_id with
  | some _ => ({ L with books := L.books.filter (fun p => p.1 != book_id) }, true)
  | none => (L, false)

/-- One `setattr(book, key, value)` from `Library.update_book`: a key that
names a `Book` attribute is set verbatim; any other key fails `hasattr` and is
ignored. -/
inductive BookUpdate where
  | set_item_id (v : String)
  | set_title (v : String)
  | set_author (v : String)
  | set_genre (v : String)
  | set_total_copies (v : Int)
  | set_available_copies (v : Int)
  | set_borrow_count (v : Int)
  | unknown_key
deriving DecidableEq, Repr

def applyBookUpdate (b : Book) : BookUpdate → Book
  | .set_item_id v => { b with item_id := v }
  | .set_title v => { b with title := v }
  | .set_author v => { b with author := v }
  | .set_genre v => { b with genre := v }
  | .set_total_copies v => { b with total_copies := v }
  | .set_available_copies v => { b with available_copies := v }
  | .set_borrow_count v => { b with borrow_count := v }
  | .unknown_key => b

/-- `Library.update_book`: apply the supplied attribute updates in order to an
existing book (no re-validation), else report failure. -/
def Library.update_book (L : Library) (book_id : String) (updates : List BookUpdate) :
    Library × Bool :=
  match dictGet L.books book_id with
  | none => (L, false)
  | some book =>
      ({ L with books := dictSet L.books book_id (updates.foldl applyBookUpdate book) }, true)

/-- `Library.add_user`: no-op when the id is already registered, else insert
and register the `user:` graph node. -/
def Library.add_user (L : Library) (user : User) : Library :=
  match dictGet L.users user.user_id with
  | some _ => L
  | none =>
      { L with users := L.users ++ [(user.user_id, user)],
               user_book_graph := L.user_book_graph.add_node ("user:" ++ user.user_id) }

/-- `Library.enqueue_borrow_request`: FIFO enqueue (append at the tail). -/
def Library.enqueue_borrow_request (L : Library) (user_id book_id : String) : Library :=
  { L with borrow_requests := L.borrow_requests ++ [(user_id, book_id)] }

/-- `Library.borrow_book`. The source checks `book.can_borrow()` and then
calls `book.borrow_one()`; both test `_available_copies > 0`, so the check and
the call are merged into the single `borrow_one` match (its `none` branch is
the source's early `return False`). -/
def Library.borrow_book (L : Library) (user_id book_id : String) : Library × Bool :=
  match dictGet L.users user_id, dictGet L.books book_id with
  | some user, some book =>
      match book.borrow_one with
      | none => (L, false)
      | some book1 =>
          ({ L with
              books := dictSet L.books book_id book1,
              users := dictSet L.users user_id (user.borrow book_id),
              user_book_graph :=
                L.user_book_graph.add_edge ("user:" ++ user_id) ("book:" ++ book_id) },
           true)
  | _, _ => (L, false)

/-- `Library.process_next_borrow`: dequeue the oldest request (if any) and
attempt it once via `borrow_book`. -/
def Library.process_next_borrow (L : Library) : Library × Bool :=
  match L.borrow_requests with
  | [] => (L, false)
  | (user_id, book_id) :: rest =>
      Library.borrow_book { L with borrow_requests := rest } user_id book_id

/-- `Library.return_book`: `none` models the uncaught `ValueError` from
`Book.return_one` propagating to the caller (raised before any mutation). -/
def Library.return_book (L : Library) (user_id book_id : String) :
    Option (Library × Bool) :=
  match dictGet L.users user_id, dictGet L.books book_id with
  | some user, some book =>
      if book_id ∈ user.borrowed_books then
        match book.return_one with
        | none => none
        | some book1 =>
            some ({ L with
                books := dictSet L.books book_id book1,
                users := dictSet L.users user_id (user.return_book book_id) }, true)
      else some (L, false)
  | _, _ => some (L, false)

/-- Observable state after a `return_book` call: when the call raises, the
raise happens before any mutation, so the state is the input state. -/
def Library.return_book_st (L : Library) (user_id book_id : String) : Library :=
  match L.return_book user_id book_id with
  | some (L1, _) => L1
  | none => L

/-! ### Claim C3: the per-book count invariant under borrow/return sequences -/

/-- The spec's per-book invariant: `0 ≤ available_copies ≤ total_copies`. -/
def bookCountInv (bk : Book) : Prop :=
  0 ≤ bk.available_copies ∧ bk.available_copies ≤ bk.total_copies

instance (bk : Book) : Decidable (bookCountInv bk) := by
  unfold bookCountInv; infer_instance

/-- One call in a borrow/return call sequence. -/
inductive BRCall where
  | borrow (user_id book_id : String)
  | ret (user_id book_id : String)
deriving DecidableEq, Repr

/-- Observable state after one borrow or return call. -/
def applyBR (L : Library) : BRCall → Library
  | .borrow u b => (L.borrow_book u b).1
  | .ret u b => L.return_book_st u b

/-- Observable state after a sequence of borrow/return calls. -/
def runBR (calls : List BRCall) (L : Library) : Library :=
  calls.foldl applyBR L

theorem dictGet_dictSet_same {α : Type} (m : List (String × α)) (k : String) (v : α) :
    (dictGet m k).isSome → dictGet (dictSet m k v) k = some v := by
  induction m with
  | nil => simp [dictGet]
  | cons p m ih =>
      intro h
      by_cases hk : p.1 = k
      · simp [dictGet, dictSet, hk]
      · simp [dictGet, dictSet, hk] at h ⊢
        exact ih h

theorem dictGet_dictSet_other {α : Type} (m : List (String × α)) (k b : String) (v : α)
    (hne : k ≠ b) : dictGet (dictSet m k v) b = dictGet m b := by
  induction m with
  | nil => simp [dictGet, dictSet]
  | cons p m ih =>
      by_cases hk : p.1 = k
      · simp [dictGet, dictSet, hk, hne, ih]
      · simp only [dictSet, if_neg hk]
        by_cases hb : p.1 = b <;> simp [dictGet, hb, ih]

theorem dictGet_dictSet_cases {α : Type} (m : List (String × α)) (k b : String) (v : α)
    (w : α) (h : dictGet (dictSet m k v) b = some w) :
    (b = k ∧ w = v) ∨ dictGet m b = some w := by
  by_cases hbk : b = k
  · subst hbk
    induction m with
    | nil => simp [dictGet, dictSet] at h
    | cons p m ih =>
        by_cases hk : p.1 = b
        · refine Or.inl ⟨rfl, ?_⟩
          simp [dictSet, hk, dictGet] at h
          exact h.symm
        · simp only [dictSet, if_neg hk] at h
          rw [dictGet, if_neg hk] at h
          rw [dictGet, if_neg hk]
          exact ih h
  · rw [dictGet_dictSet_other m k b v (fun he => hbk he.symm)] at h
    exact Or.inr h

/-- The book dict after a `borrow_book` call: either untouched, or exactly
the borrowed book is replaced by its `borrow_one` result. -/
theorem borrow_book_books (L : Library) (u b0 : String) :
    ((L.borrow_book u b0).1).books = L.books ∨
    ∃ bk0 bk1, dictGet L.books b0 = some bk0 ∧ bk0.borrow_one = some bk1 ∧
      ((L.borrow_book u b0).1).books = dictSet L.books b0 bk1 := by
  unfold Library.borrow_book
  split
  · rename_i user bk0 heq1 heq2
    cases hbo : bk0.borrow_one with
    | none => exact Or.inl rfl
    | some bk1 => exact Or.inr ⟨bk0, bk1, heq2, hbo, rfl⟩
  · exact Or.inl rfl

/-- The book dict after a `return_book` call (observable state, also at a
raise): either untouched, or exactly the returned book is replaced by its
`return_one` result. -/
theorem return_book_st_books (L : Library) (u b0 : String) :
    ((L.return_book_st u b0)).books = L.books ∨
    ∃ bk0 bk1, dictGet L.books b0 = some bk0 ∧ bk0.return_one = some bk1 ∧
      ((L.return_book_st u b0)).books = dictSet L.books b0 bk1 := by
  unfold Library.return_book_st
  cases hres : L.return_book u b0 with
  | none => exact Or.inl rfl
  | some p =>
      obtain ⟨L1, r⟩ := p
      unfold Library.return_book at hres
      split at hres
      · rename_i user bk0 heq1 heq2
        by_cases hmem : b0 ∈ user.borrowed_books
        · rw [if_pos hmem] at hres
          cases hro : bk0.return_one with
          | none => rw [hro] at hres; exact absurd hres (by simp)
          | some bk1 =>
              rw [hro] at hres
              simp only [Option.some.injEq, Prod.mk.injEq] at hres
              refine Or.inr ⟨bk0, bk1, heq2, hro, ?_⟩
              rw [← hres.1]
        · rw [if_neg hmem] at hres
          simp only [Option.some.injEq, Prod.mk.injEq] at hres
          rw [← hres.1]
          exact Or.inl rfl
      · simp only [Option.some.injEq, Prod.mk.injEq] at hres
        rw [← hres.1]
        exact Or.inl rfl

/-- `borrow_one` keeps the count invariant. -/
theorem borrow_one_bookCountInv (bk0 bk1 : Book) (h : bk0.borrow_one = some bk1)
    (hinv : bookCountInv bk0) : bookCountInv bk1 := by
  unfold Book.borrow_one at h
  split at h
  · exact absurd h (by simp)
  · rename_i hpos
    cases h
    unfold bookCountInv at hinv ⊢
    simp only
    omega

/-- `return_one` keeps the count invariant (even establishes the upper
bound by itself). -/
theorem return_one_bookCountInv (bk0 bk1 : Book) (h : bk0.return_one = some bk1)
    (hinv : bookCountInv bk0) : bookCountInv bk1 := by
  unfold Book.return_one at h
  split at h
  · exact absurd h (by simp)
  · rename_i hlt
    cases h
    unfold bookCountInv at hinv ⊢
    simp only
    omega

/-- A single borrow or return call preserves the count invariant of every
book that satisfies it. -/
theorem bookCountInv_applyBR (L : Library) (c : BRCall) (b : String)
    (hinv : ∀ bk, dictGet L.books b = some bk → bookCountInv bk) :
    ∀ bk1, dictGet (applyBR L c).books b = some bk1 → bookCountInv bk1 := by
  intro bk1 h1
  cases c with
  | borrow u b0 =>
      simp only [applyBR] at h1
      rcases borrow_book_books L u b0 with hsame | ⟨bk0, bk0', hget, hstep, hset⟩
      · rw [hsame] at h1
        exact hinv bk1 h1
      · rw [hset] at h1
        rcases dictGet_dictSet_cases _ _ _ _ _ h1 with ⟨hbb, hw⟩ | hold
        · subst hbb hw
          exact borrow_one_bookCountInv bk0 bk1 hstep (hinv bk0 hget)
        · exact hinv bk1 hold
  | ret u b0 =>
      simp only [applyBR] at h1
      rcases return_book_st_books L u b0 with hsame | ⟨bk0, bk0', hget, hstep, hset⟩
      · rw [hsame] at h1
        exact hinv bk1 h1
      · rw [hset] at h1
        rcases dictGet_dictSet_cases _ _ _ _ _ h1 with ⟨hbb, hw⟩ | hold
        · subst hbb hw
          exact return_one_bookCountInv bk0 bk1 hstep (hinv bk0 hget)
        · exact hinv bk1 hold

/-- C3: for every book and every sequence of `borrow_book` / `return_book`
calls starting from a state where that book satisfies
`0 ≤ available_copies ≤ total_copies`, the invariant still holds for that book
after the sequence. -/
theorem borrow_return_preserves_bookCountInv (calls : List BRCall) (L : Library)
    (b : String)
    (hinv : ∀ bk, dictGet L.books b = some bk → bookCountInv bk) :
    ∀ bk1, dictGet (runBR calls L).books b = some bk1 → bookCountInv bk1 := by
  induction calls generalizing L with
  | nil => exact hinv
  | cons c calls ih =>
      intro bk1 h1
      exact ih (applyBR L c) (bookCountInv_applyBR L c b hinv) bk1 h1

/-- Witness for C3: a concrete two-call run on a one-book catalog keeps the
invariant. -/
theorem borrow_return_preserves_bookCountInv_witness :
    dictGet (runBR [BRCall.borrow "u1" "b1", BRCall.ret "u1" "b1"]
        { books := [("b1", ⟨"b1", "T", "A", "g", 2, 1, 0⟩)],
          users := [("u1", ⟨"u1", "N", [], [], []⟩)],
          borrow_requests := [], user_book_graph := ⟨[]⟩ }).books "b1"
      = some ⟨"b1", "T", "A", "g", 2, 1, 1⟩ ∧
    bookCountInv ⟨"b1", "T", "A", "g", 2, 1, 1⟩ :=
  ⟨by decide,
    borrow_return_preserves_bookCountInv
      [BRCall.borrow "u1" "b1", BRCall.ret "u1" "b1"]
      { books := [("b1", ⟨"b1", "T", "A", "g", 2, 1, 0⟩)],
        users := [("u1", ⟨"u1", "N", [], [], []⟩)],
        borrow_requests := [], user_book_graph := ⟨[]⟩ }
      "b1" (by decide) ⟨"b1", "T", "A", "g", 2, 1, 1⟩ (by decide)⟩

/-! ### Claim C4: exact failure condition of return_book -/

/-- The failure condition the spec gives for `return_book`: an unknown user
id, an unknown book id, or a book id not currently in the user's borrowed
set. -/
def returnFailCond (L : Library) (u b : String) : Prop :=
  dictGet L.users u = none ∨ dictGet L.books b = none ∨
  ∃ usr, dictGet L.users u = some usr ∧ b ∉ usr.borrowed_books

/-- Equation for `return_book` when the user id is unknown. -/
theorem return_book_eq_user_none (L : Library) (u b : String)
    (hu : dictGet L.users u = none) : L.return_book u b = some (L, false) := by
  unfold Library.return_book
  rw [hu]

/-- Equation for `return_book` when the user is known and the book id is
unknown. -/
theorem return_book_eq_book_none (L : Library) (u b : String) (usr : User)
    (hu : dictGet L.users u = some usr) (hb : dictGet L.books b = none) :
    L.return_book u b = some (L, false) := by
  unfold Library.return_book
  rw [hu, hb]

/-- Equation for `return_book` when both ids are known. -/
theorem return_book_eq_found (L : Library) (u b : String) (usr : User) (bk : Book)
    (hu : dictGet L.users u = some usr) (hb : dictGet L.books b = some bk) :
    L.return_book u b =
      if b ∈ usr.borrowed_books then
        match bk.return_one with
        | none => none
        | some bk1 =>
            some (⟨dictSet L.books b bk1, dictSet L.users u (usr.return_book b),
              L.borrow_requests, L.user_book_graph⟩, true)
      else some (L, false) := by
  unfold Library.return_book
  rw [hu, hb]

/-- C4: `return_book` returns `false` exactly under `returnFailCond`, and
every such failure leaves the state unchanged (the `false` result always
comes with the input state; the condition never raises). -/
theorem return_book_failure_iff (L : Library) (u b : String) :
    (returnFailCond L u b ↔ L.return_book u b = some (L, false)) ∧
    (∀ L1, L.return_book u b = some (L1, false) → L1 = L) := by
  unfold returnFailCond
  cases hu : dictGet L.users u with
  | none =>
      rw [return_book_eq_user_none L u b hu]
      refine ⟨⟨fun _ => rfl, fun _ => Or.inl rfl⟩, fun L1 h1 => ?_⟩
      simp only [Option.some.injEq, Prod.mk.injEq] at h1
      exact h1.1.symm
  | some usr =>
      cases hb : dictGet L.books b with
      | none =>
          rw [return_book_eq_book_none L u b usr hu hb]
          refine ⟨⟨fun _ => rfl, fun _ => Or.inr (Or.inl rfl)⟩, fun L1 h1 => ?_⟩
          simp only [Option.some.injEq, Prod.mk.injEq] at h1
          exact h1.1.symm
      | some bk =>
          rw [return_book_eq_found L u b usr bk hu hb]
          by_cases hmem : b ∈ usr.borrowed_books
          · rw [if_pos hmem]
            constructor
            · constructor
              · intro hcond
                rcases hcond with h | h | ⟨usr2, husr2, hnot⟩
                · exact absurd h (by simp)
                · exact absurd h (by simp)
                · obtain rfl : usr = usr2 := Option.some.inj husr2
                  exact absurd hmem hnot
              · intro hres
                cases hro : bk.return_one with
                | none => rw [hro] at hres; exact absurd hres (by simp)
                | some bk1 =>
                    rw [hro] at hres
                    simp only [Option.some.injEq, Prod.mk.injEq] at hres
                    exact absurd hres.2 (by simp)
            · intro L1 h1
              cases hro : bk.return_one with
              | none => rw [hro] at h1; exact absurd h1 (by simp)
              | some bk1 =>
                  rw [hro] at h1
                  simp only [Option.some.injEq, Prod.mk.injEq] at h1
                  exact absurd h1.2 (by simp)
          · rw [if_neg hmem]
            refine ⟨⟨fun _ => rfl, fun _ => Or.inr (Or.inr ⟨usr, rfl, hmem⟩)⟩,
              fun L1 h1 => ?_⟩
            simp only [Option.some.injEq, Prod.mk.injEq] at h1
            exact h1.1.symm

/-- A small concrete catalog: one book with one copy, one user who has
borrowed nothing. -/
def sampleLib : Library :=
  { books := [("b1", ⟨"b1", "T", "A", "g", 1, 1, 0⟩)],
    users := [("u1", ⟨"u1", "N", [], [], []⟩)],
    borrow_requests := [],
    user_book_graph := ⟨[("user:u1", []), ("book:b1", [])]⟩ }

/-- Witness for C4: on a concrete catalog, returning a never-borrowed book
fails and leaves the state unchanged. -/
theorem return_book_failure_iff_witness :
    (returnFailCond sampleLib "u1" "b1" ↔
      sampleLib.return_book "u1" "b1" = some (sampleLib, false)) ∧
    (∀ L1, sampleLib.return_book "u1" "b1" = some (L1, false) → L1 = sampleLib) :=
  return_book_failure_iff sampleLib "u1" "b1"

/-! ### Claim C1: exact behaviour of borrow_book -/

theorem dictGet_append_of_none {α : Type} (m m2 : List (String × α)) (b : String)
    (h : dictGet m b = none) : dictGet (m ++ m2) b = dictGet m2 b := by
  induction m with
  | nil => rfl
  | cons p m ih =>
      rw [dictGet] at h
      by_cases hp : p.1 = b
      · rw [if_pos hp] at h; exact absurd h (by simp)
      · rw [if_neg hp] at h
        rw [List.cons_append, dictGet, if_neg hp]
        exact ih h

theorem dictGet_append_of_some {α : Type} (m m2 : List (String × α)) (b : String)
    (x : α) (h : dictGet m b = some x) : dictGet (m ++ m2) b = some x := by
  induction m with
  | nil => exact absurd h (by simp [dictGet])
  | cons p m ih =>
      rw [dictGet] at h
      by_cases hp : p.1 = b
      · rw [if_pos hp] at h
        rw [List.cons_append, dictGet, if_pos hp]
        exact h
      · rw [if_neg hp] at h
        rw [List.cons_append, dictGet, if_neg hp]
        exact ih h

theorem setInsert_of_mem (x : String) (l : List String) (h : x ∈ l) :
    setInsert x l = l := by
  unfold setInsert
  rw [if_pos h]

theorem setInsert_of_not_mem (x : String) (l : List String) (h : x ∉ l) :
    setInsert x l = l ++ [x] := by
  unfold setInsert
  rw [if_neg h]

/-- Membership in the set-model insertion. -/
theorem mem_setInsert (x y : String) (l : List String) :
    x ∈ setInsert y l ↔ x = y ∨ x ∈ l := by
  unfold setInsert
  by_cases hy : y ∈ l
  · rw [if_pos hy]
    constructor
    · exact Or.inr
    · rintro (rfl | hx)
      · exact hy
      · exact hx
  · rw [if_neg hy]
    simp [or_comm]

/-- Adjacency after `add_node`: the node gets its current (possibly empty)
neighbor set; nothing else changes. -/
theorem adjOf_add_node (g : Graph) (n x : String) :
    (g.add_node n).adjOf x = if x = n then some (g.neighborsOf n) else g.adjOf x := by
  unfold Graph.add_node
  cases hn : g.adjOf n with
  | some l =>
      by_cases hx : x = n
      · subst hx
        rw [if_pos rfl]
        unfold Graph.neighborsOf
        rw [hn]
        rfl
      · rw [if_neg hx]
  | none =>
      by_cases hx : x = n
      · subst hx
        rw [if_pos rfl]
        unfold Graph.neighborsOf Graph.adjOf at *
        rw [dictGet_append_of_none _ _ _ hn, hn, dictGet, if_pos rfl]
        rfl
      · rw [if_neg hx]
        unfold Graph.adjOf at *
        cases hx2 : dictGet g.adj x with
        | some l2 => exact dictGet_append_of_some _ _ _ _ hx2
        | none =>
            rw [dictGet_append_of_none _ _ _ hx2, dictGet,
              if_neg (fun hh : n = x => hx hh.symm)]
            rfl

/-- Adjacency after `adjInsert` at a present key. -/
theorem adjOf_adjInsert_same (g : Graph) (a v : String) (h : (g.adjOf a).isSome) :
    (g.adjInsert a v).adjOf a = some (setInsert v (g.neighborsOf a)) := by
  unfold Graph.adjInsert Graph.adjOf at *
  exact dictGet_dictSet_same _ _ _ h

theorem adjOf_adjInsert_other (g : Graph) (a v x : String) (h : x ≠ a) :
    (g.adjInsert a v).adjOf x = g.adjOf x := by
  unfold Graph.adjInsert Graph.adjOf
  exact dictGet_dictSet_other _ _ _ _ (fun hh => h hh.symm)

/-- Full adjacency description of `add_edge` for distinct endpoints. -/
theorem adjOf_add_edge (g : Graph) (a b x : String) (hab : a ≠ b) :
    (g.add_edge a b).adjOf x =
      if x = a then some (setInsert b (g.neighborsOf a))
      else if x = b then some (setInsert a (g.neighborsOf b))
      else g.adjOf x := by
  unfold Graph.add_edge
  rw [if_neg hab]
  have h2a : ((g.add_node a).add_node b).adjOf a = some (g.neighborsOf a) := by
    rw [adjOf_add_node, if_neg hab, adjOf_add_node, if_pos rfl]
  have h2b : ((g.add_node a).add_node b).adjOf b = some ((g.add_node a).neighborsOf b) := by
    rw [adjOf_add_node, if_pos rfl]
  have hnb : (g.add_node a).neighborsOf b = g.neighborsOf b := by
    unfold Graph.neighborsOf
    rw [adjOf_add_node, if_neg (fun hh : b = a => hab hh.symm)]
  rw [hnb] at h2b
  have h3a : (((g.add_node a).add_node b).adjInsert a b).adjOf a =
      some (setInsert b (g.neighborsOf a)) := by
    rw [adjOf_adjInsert_same _ _ _ (by rw [h2a]; rfl)]
    unfold Graph.neighborsOf
    rw [h2a]
    rfl
  have h3b : (((g.add_node a).add_node b).adjInsert a b).adjOf b =
      some (g.neighborsOf b) := by
    rw [adjOf_adjInsert_other _ _ _ _ (fun hh : b = a => hab hh.symm)]
    exact h2b
  by_cases hxa : x = a
  · subst hxa
    rw [if_pos rfl]
    rw [adjOf_adjInsert_other _ _ _ _ hab]
    exact h3a
  · rw [if_neg hxa]
    by_cases hxb : x = b
    · subst hxb
      rw [if_pos rfl]
      rw [adjOf_adjInsert_same _ _ _ (by rw [h3b]; rfl)]
      unfold Graph.neighborsOf
      rw [h3b]
      rfl
    · rw [if_neg hxb]
      rw [adjOf_adjInsert_other _ _ _ _ hxb,
        adjOf_adjInsert_other _ _ _ _ hxa,
        adjOf_add_node, if_neg hxb, adjOf_add_node, if_neg hxa]

/-- A `user:`-prefixed node is never a `book:`-prefixed node. -/
theorem user_node_ne_book_node (u b : String) : "user:" ++ u ≠ "book:" ++ b := by
  intro h
  have h1 := congrArg (fun s : String => s.data.take 5) h
  simp only [String.data_append] at h1
  rw [show ("user:".data ++ u.data).take 5 = "user:".data from by
        rw [show (5 : Nat) = "user:".data.length from rfl, List.take_left],
      show ("book:".data ++ b.data).take 5 = "book:".data from by
        rw [show (5 : Nat) = "book:".data.length from rfl, List.take_left]] at h1
  exact absurd h1 (by decide)

/-- Equation for `borrow_book` when the user id is unknown. -/
theorem borrow_book_eq_user_none (L : Library) (u b : String)
    (hu : dictGet L.users u = none) : L.borrow_book u b = (L, false) := by
  unfold Library.borrow_book
  rw [hu]

/-- Equation for `borrow_book` when the user is known and the book id is
unknown. -/
theorem borrow_book_eq_book_none (L : Library) (u b : String) (usr : User)
    (hu : dictGet L.users u = some usr) (hb : dictGet L.books b = none) :
    L.borrow_book u b = (L, false) := by
  unfold Library.borrow_book
  rw [hu, hb]

/-- Equation for `borrow_book` when both ids are known. -/
theorem borrow_book_eq_found (L : Library) (u b : String) (usr : User) (bk : Book)
    (hu : dictGet L.users u = some usr) (hb : dictGet L.books b = some bk) :
    L.borrow_book u b =
      match bk.borrow_one with
      | none => (L, false)
      | some bk1 =>
          (⟨dictSet L.books b bk1, dictSet L.users u (usr.borrow b),
            L.borrow_requests,
            L.user_book_graph.add_edge ("user:" ++ u) ("book:" ++ b)⟩, true) := by
  unfold Library.borrow_book
  rw [hu, hb]

/-- C1: `borrow_book` fails with no state change when either id is unknown or
no copy is available; on success it decrements the availability, increments
the borrow count, records the book in the user's borrowed set, appends it to
the user's history, adds exactly the undirected edge
(`user:` user id, `book:` book id) to the interaction graph, and changes
nothing else. -/
theorem borrow_book_spec (L : Library) (u b : String) :
    (dictGet L.users u = none → L.borrow_book u b = (L, false)) ∧
    (dictGet L.books b = none → L.borrow_book u b = (L, false)) ∧
    (∀ usr bk, dictGet L.users u = some usr → dictGet L.books b = some bk →
      bk.available_copies ≤ 0 → L.borrow_book u b = (L, false)) ∧
    (∀ usr bk, dictGet L.users u = some usr → dictGet L.books b = some bk →
      0 < bk.available_copies →
      (L.borrow_book u b).2 = true ∧
      (∃ bk1, dictGet (L.borrow_book u b).1.books b = some bk1 ∧
        bk1.available_copies = bk.available_copies - 1 ∧
        bk1.borrow_count = bk.borrow_count + 1 ∧
        bk1.item_id = bk.item_id ∧ bk1.title = bk.title ∧
        bk1.author = bk.author ∧ bk1.genre = bk.genre ∧
        bk1.total_copies = bk.total_copies) ∧
      (∀ b2, b2 ≠ b → dictGet (L.borrow_book u b).1.books b2 = dictGet L.books b2) ∧
      (∃ usr1, dictGet (L.borrow_book u b).1.users u = some usr1 ∧
        b ∈ usr1.borrowed_books ∧
        (∀ x, x ≠ b → (x ∈ usr1.borrowed_books ↔ x ∈ usr.borrowed_books)) ∧
        usr1.history = usr.history ++ [b] ∧
        usr1.user_id = usr.user_id ∧ usr1.name = usr.name ∧
        usr1.interests = usr.interests) ∧
      (∀ u2, u2 ≠ u → dictGet (L.borrow_book u b).1.users u2 = dictGet L.users u2) ∧
      (L.borrow_book u b).1.borrow_requests = L.borrow_requests ∧
      (("book:" ++ b) ∈ (L.borrow_book u b).1.user_book_graph.neighborsOf ("user:" ++ u) ∧
       ("user:" ++ u) ∈ (L.borrow_book u b).1.user_book_graph.neighborsOf ("book:" ++ b)) ∧
      (∀ x, x ≠ "user:" ++ u → x ≠ "book:" ++ b →
        (L.borrow_book u b).1.user_book_graph.adjOf x = L.user_book_graph.adjOf x) ∧
      (∀ y, y ≠ "book:" ++ b →
        (y ∈ (L.borrow_book u b).1.user_book_graph.neighborsOf ("user:" ++ u) ↔
         y ∈ L.user_book_graph.neighborsOf ("user:" ++ u))) ∧
      (∀ y, y ≠ "user:" ++ u →
        (y ∈ (L.borrow_book u b).1.user_book_graph.neighborsOf ("book:" ++ b) ↔
         y ∈ L.user_book_graph.neighborsOf ("book:" ++ b)))) := by
  refine ⟨fun hu => borrow_book_eq_user_none L u b hu, ?_, ?_, ?_⟩
  · intro hb
    cases hu : dictGet L.users u with
    | none => exact borrow_book_eq_user_none L u b hu
    | some usr => exact borrow_book_eq_book_none L u b usr hu hb
  · intro usr bk hu hb hz
    rw [borrow_book_eq_found L u b usr bk hu hb]
    have : bk.borrow_one = none := by
      unfold Book.borrow_one
      rw [if_pos hz]
    rw [this]
  · intro usr bk hu hb hpos
    have hbo : bk.borrow_one = some
        { bk with available_copies := bk.available_copies - 1,
                  borrow_count := bk.borrow_count + 1 } := by
      unfold Book.borrow_one
      rw [if_neg (by omega)]
    have heq := borrow_book_eq_found L u b usr bk hu hb
    rw [hbo] at heq
    rw [heq]
    have hab := user_node_ne_book_node u b
    refine ⟨rfl, ?_, ?_, ?_, ?_, rfl, ?_, ?_, ?_, ?_⟩
    · exact ⟨_, dictGet_dictSet_same _ _ _ (by rw [hb]; rfl), rfl, rfl, rfl, rfl,
        rfl, rfl, rfl⟩
    · intro b2 hb2
      exact dictGet_dictSet_other _ _ _ _ (fun hh => hb2 hh.symm)
    · refine ⟨usr.borrow b, dictGet_dictSet_same _ _ _ (by rw [hu]; rfl), ?_, ?_,
        rfl, rfl, rfl, rfl⟩
      · unfold User.borrow
        simp only
        rw [mem_setInsert]
        exact Or.inl rfl
      · intro x hx
        unfold User.borrow
        simp only
        rw [mem_setInsert]
        constructor
        · rintro (rfl | h)
          · exact absurd rfl hx
          · exact h
        · exact Or.inr
    · intro u2 hu2
      exact dictGet_dictSet_other _ _ _ _ (fun hh => hu2 hh.symm)
    · constructor
      · unfold Graph.neighborsOf
        rw [adjOf_add_edge _ _ _ _ hab, if_pos rfl]
        simp only [Option.getD_some]
        rw [mem_setInsert]
        exact Or.inl rfl
      · unfold Graph.neighborsOf
        rw [adjOf_add_edge _ _ _ _ hab, if_neg (fun hh => hab hh.symm), if_pos rfl]
        simp only [Option.getD_some]
        rw [mem_setInsert]
        exact Or.inl rfl
    · intro x hxu hxb
      rw [adjOf_add_edge _ _ _ _ hab, if_neg hxu, if_neg hxb]
    · intro y hy
      unfold Graph.neighborsOf
      rw [adjOf_add_edge _ _ _ _ hab, if_pos rfl]
      simp only [Option.getD_some]
      rw [mem_setInsert]
      constructor
      · rintro (rfl | h)
        · exact absurd rfl hy
        · exact h
      · exact Or.inr
    · intro y hy
      unfold Graph.neighborsOf
      rw [adjOf_add_edge _ _ _ _ hab, if_neg (fun hh => hab hh.symm), if_pos rfl]
      simp only [Option.getD_some]
      rw [mem_setInsert]
      constructor
      · rintro (rfl | h)
        · exact absurd rfl hy
        · exact h
      · exact Or.inr

/-- Witness for C1: on the concrete sample catalog the success branch of the
specification applies, with all its hypotheses discharged. -/
theorem borrow_book_spec_witness :
    (sampleLib.borrow_book "u1" "b1").2 = true ∧
    (∃ bk1, dictGet (sampleLib.borrow_book "u1" "b1").1.books "b1" = some bk1 ∧
      bk1.available_copies = (0 : Int) ∧ bk1.borrow_count = (1 : Int)) ∧
    ("book:b1" ∈
      (sampleLib.borrow_book "u1" "b1").1.user_book_graph.neighborsOf "user:u1") := by
  have h := (borrow_book_spec sampleLib "u1" "b1").2.2.2 ⟨"u1", "N", [], [], []⟩
    ⟨"b1", "T", "A", "g", 1, 1, 0⟩ (by decide) (by decide) (by decide)
  obtain ⟨hr, ⟨bk1, hbk1, ha, hc, -, -, -, -, -⟩, -, -, -, -, ⟨he1, -⟩, -⟩ := h
  refine ⟨hr, ⟨bk1, hbk1, ?_, ?_⟩, ?_⟩
  · rw [ha]; rfl
  · rw [hc]; rfl
  · have : "book:" ++ "b1" = "book:b1" := rfl
    rw [← this]
    have h2 : "user:" ++ "u1" = "user:u1" := rfl
    rw [← h2]
    exact he1

/-! ### Claim C7: FIFO processing of the borrow-request queue -/

/-- Repeated calls to `process_next_borrow`, instrumented with the ghost trace
of the attempted requests and their results: before each call the front of the
queue (the request that call will dequeue and attempt) is recorded. Stops when
the queue is empty, since further calls attempt nothing. -/
def processMany : Nat → Library → Library × List ((String × String) × Bool)
  | 0, L => (L, [])
  | k + 1, L =>
    match L.borrow_requests with
    | [] => (L, [])
    | req :: _ =>
        let step := L.process_next_borrow
        let rest := processMany k step.1
        (rest.1, (req, step.2) :: rest.2)

/-- `borrow_book` never touches the request queue. -/
theorem borrow_book_queue (L : Library) (u b : String) :
    ((L.borrow_book u b).1).borrow_requests = L.borrow_requests := by
  cases hu : dictGet L.users u with
  | none => rw [borrow_book_eq_user_none L u b hu]
  | some usr =>
      cases hb : dictGet L.books b with
      | none => rw [borrow_book_eq_book_none L u b usr hu hb]
      | some bk =>
          rw [borrow_book_eq_found L u b usr bk hu hb]
          cases bk.borrow_one <;> rfl

/-- Equation for `process_next_borrow` on a nonempty queue. -/
theorem process_next_eq_cons (L : Library) (u b : String)
    (rest : List (String × String)) (h : L.borrow_requests = (u, b) :: rest) :
    L.process_next_borrow =
      Library.borrow_book ⟨L.books, L.users, rest, L.user_book_graph⟩ u b := by
  unfold Library.process_next_borrow
  rw [h]

/-- C7: enqueueing appends at the tail, and `k` repeated
`process_next_borrow` calls attempt exactly the first `k` queued requests,
once each, in FIFO order, leaving exactly the remaining requests queued
(a failed attempt is dropped, never re-enqueued). -/
theorem process_next_borrow_fifo (k : Nat) (L : Library) :
    ((processMany k L).2.map Prod.fst = L.borrow_requests.take k) ∧
    ((processMany k L).1.borrow_requests = L.borrow_requests.drop k) ∧
    (∀ u b, (L.enqueue_borrow_request u b).borrow_requests
        = L.borrow_requests ++ [(u, b)]) := by
  induction k generalizing L with
  | zero => exact ⟨by simp [processMany], by simp [processMany], fun u b => rfl⟩
  | succ k ih =>
      refine ⟨?_, ?_, fun u b => rfl⟩
      · cases hq : L.borrow_requests with
        | nil => simp [processMany, hq]
        | cons req rest =>
            obtain ⟨u, b⟩ := req
            have hstep : (L.process_next_borrow).1.borrow_requests = rest := by
              rw [process_next_eq_cons L u b rest hq]
              exact borrow_book_queue _ u b
            have := (ih (L.process_next_borrow).1).1
            rw [hstep] at this
            simp [processMany, hq, this]
      · cases hq : L.borrow_requests with
        | nil => simp [processMany, hq]
        | cons req rest =>
            obtain ⟨u, b⟩ := req
            have hstep : (L.process_next_borrow).1.borrow_requests = rest := by
              rw [process_next_eq_cons L u b rest hq]
              exact borrow_book_queue _ u b
            have := (ih (L.process_next_borrow).1).2.1
            rw [hstep] at this
            simp [processMany, hq, this]

/-! ### Claim C9: update_book applies supplied attributes verbatim -/

/-- C9: `update_book` on an existing book applies every supplied known
attribute update verbatim (the setters store the given value with no
re-validation, unknown keys are ignored), and consequently there is a state
reachable with the public operations (a constructible book added to the empty
catalog, then `update_book` lowering `total_copies`) where `update_book`
returns `true` and leaves the book violating
`0 ≤ available_copies ≤ total_copies`. -/
theorem update_book_no_revalidation :
    (∀ (L : Library) (id : String) (us : List BookUpdate) (bk : Book),
      dictGet L.books id = some bk →
      L.update_book id us =
        (⟨dictSet L.books id (us.foldl applyBookUpdate bk), L.users,
          L.borrow_requests, L.user_book_graph⟩, true) ∧
      (∀ n, (applyBookUpdate bk (BookUpdate.set_total_copies n)).total_copies = n) ∧
      (∀ n, (applyBookUpdate bk
        (BookUpdate.set_available_copies n)).available_copies = n) ∧
      (∀ n, (applyBookUpdate bk (BookUpdate.set_borrow_count n)).borrow_count = n) ∧
      applyBookUpdate bk BookUpdate.unknown_key = bk) ∧
    (Book.post_init ⟨"b1", "T", "A", "g", 2, 2, 0⟩ = some ⟨"b1", "T", "A", "g", 2, 2, 0⟩ ∧
     ∃ bk, dictGet ((Library.empty.add_book ⟨"b1", "T", "A", "g", 2, 2, 0⟩
          |>.update_book "b1" [BookUpdate.set_total_copies 0]).1).books "b1" = some bk ∧
        ((Library.empty.add_book ⟨"b1", "T", "A", "g", 2, 2, 0⟩
          |>.update_book "b1" [BookUpdate.set_total_copies 0]).2 = true) ∧
        ¬ bookCountInv bk) := by
  constructor
  · intro L id us bk h
    refine ⟨?_, fun n => rfl, fun n => rfl, fun n => rfl, rfl⟩
    unfold Library.update_book
    rw [h]
  · exact ⟨by decide, ⟨"b1", "T", "A", "g", 0, 2, 0⟩, by decide, by decide, by decide⟩

/-- Witness for C9: the universally quantified part applied to the sample
catalog with a concrete verbatim `borrow_count` update. -/
theorem update_book_no_revalidation_witness :
    sampleLib.update_book "b1" [BookUpdate.set_borrow_count 7] =
      (⟨dictSet sampleLib.books "b1"
          ([BookUpdate.set_borrow_count 7].foldl applyBookUpdate
            ⟨"b1", "T", "A", "g", 1, 1, 0⟩),
        sampleLib.users, sampleLib.borrow_requests, sampleLib.user_book_graph⟩,
       true) :=
  (update_book_no_revalidation.1 sampleLib "b1" [BookUpdate.set_borrow_count 7]
    ⟨"b1", "T", "A", "g", 1, 1, 0⟩ (by decide)).1


/-! ### Claim C10: double borrow, set-based borrowed_books, single return -/

/-- A second sample catalog whose single book has two copies. -/
def sampleLib2 : Library :=
  { books := [("b1", ⟨"b1", "T", "A", "g", 2, 2, 0⟩)],
    users := [("u1", ⟨"u1", "N", [], [], []⟩)],
    borrow_requests := [],
    user_book_graph := ⟨[("user:u1", []), ("book:b1", [])]⟩ }

/-- C10: if a user with the book not in their borrowed set borrows the same
book twice in a row (two available copies, counts satisfying the data-model
invariant), both borrows succeed, the borrowed set then contains the id once
while the history contains it twice; the next `return_book` succeeds, the one
after that fails, and the book's `available_copies` ends one below its value
before the two borrows. -/
theorem double_borrow_single_return (L : Library) (u b : String) (usr : User)
    (bk : Book) (hu : dictGet L.users u = some usr)
    (hb : dictGet L.books b = some bk) (h2 : 2 ≤ bk.available_copies)
    (hinv : bk.available_copies ≤ bk.total_copies)
    (hnb : b ∉ usr.borrowed_books) :
    (L.borrow_book u b).2 = true ∧
    ((L.borrow_book u b).1.borrow_book u b).2 = true ∧
    (∃ usr2, dictGet (((L.borrow_book u b).1.borrow_book u b).1).users u = some usr2 ∧
      usr2.borrowed_books.count b = 1 ∧
      usr2.history.count b = usr.history.count b + 2) ∧
    (∃ L3, (((L.borrow_book u b).1.borrow_book u b).1).return_book u b
        = some (L3, true) ∧
      L3.return_book u b = some (L3, false) ∧
      (∃ bk3, dictGet L3.books b = some bk3 ∧
        bk3.available_copies = bk.available_copies - 1)) := by
  set bk1 : Book := { bk with available_copies := bk.available_copies - 1,
                              borrow_count := bk.borrow_count + 1 } with hbk1def
  have hav1 : bk1.available_copies = bk.available_copies - 1 := by rw [hbk1def]
  have htot1 : bk1.total_copies = bk.total_copies := by rw [hbk1def]
  set usr1 : User := usr.borrow b with husr1def
  have hbo1 : bk.borrow_one = some bk1 := by
    unfold Book.borrow_one
    rw [if_neg (by omega)]
  have heq1 := borrow_book_eq_found L u b usr bk hu hb
  rw [hbo1] at heq1
  set L1 : Library := (L.borrow_book u b).1 with hL1def
  have hr1 : (L.borrow_book u b).2 = true := by rw [heq1]
  have hL1 : L1 = ⟨dictSet L.books b bk1, dictSet L.users u usr1,
      L.borrow_requests,
      L.user_book_graph.add_edge ("user:" ++ u) ("book:" ++ b)⟩ := by
    rw [hL1def, heq1]
  have h1u : dictGet L1.users u = some usr1 := by
    rw [hL1]
    exact dictGet_dictSet_same _ _ _ (by rw [hu]; rfl)
  have h1b : dictGet L1.books b = some bk1 := by
    rw [hL1]
    exact dictGet_dictSet_same _ _ _ (by rw [hb]; rfl)
  set bk2 : Book := { bk1 with available_copies := bk1.available_copies - 1,
                               borrow_count := bk1.borrow_count + 1 } with hbk2def
  have hav2 : bk2.available_copies = bk.available_copies - 2 := by
    rw [hbk2def, hav1]
    simp only
    omega
  have htot2 : bk2.total_copies = bk.total_copies := by rw [hbk2def, htot1]
  have hbo2 : bk1.borrow_one = some bk2 := by
    unfold Book.borrow_one
    rw [if_neg (by rw [hav1]; omega)]
  have heq2 := borrow_book_eq_found L1 u b usr1 bk1 h1u h1b
  rw [hbo2] at heq2
  set usr2 : User := usr1.borrow b with husr2def
  set L2 : Library := (L1.borrow_book u b).1 with hL2def
  have hr2 : (L1.borrow_book u b).2 = true := by rw [heq2]
  have hL2 : L2 = ⟨dictSet L1.books b bk2, dictSet L1.users u usr2,
      L1.borrow_requests,
      L1.user_book_graph.add_edge ("user:" ++ u) ("book:" ++ b)⟩ := by
    rw [hL2def, heq2]
  have h2u : dictGet L2.users u = some usr2 := by
    rw [hL2]
    exact dictGet_dictSet_same _ _ _ (by rw [h1u]; rfl)
  have h2b : dictGet L2.books b = some bk2 := by
    rw [hL2]
    exact dictGet_dictSet_same _ _ _ (by rw [h1b]; rfl)
  have hmem1 : b ∈ setInsert b usr.borrowed_books := by
    rw [mem_setInsert]; exact Or.inl rfl
  have hbor2 : usr2.borrowed_books = setInsert b usr.borrowed_books := by
    rw [husr2def, husr1def]
    show setInsert b (setInsert b usr.borrowed_books) = setInsert b usr.borrowed_books
    exact setInsert_of_mem _ _ hmem1
  have hmem2 : b ∈ usr2.borrowed_books := by rw [hbor2]; exact hmem1
  set bk3 : Book := { bk2 with available_copies := bk2.available_copies + 1 }
    with hbk3def
  have hav3 : bk3.available_copies = bk.available_copies - 1 := by
    have h9 : bk3.available_copies = bk2.available_copies + 1 := rfl
    rw [h9, hav2]
    omega
  have hro : bk2.return_one = some bk3 := by
    unfold Book.return_one
    rw [if_neg (by rw [hav2, htot2]; omega)]
  have heq3 := return_book_eq_found L2 u b usr2 bk2 h2u h2b
  rw [if_pos hmem2, hro] at heq3
  set L3 : Library := ⟨dictSet L2.books b bk3, dictSet L2.users u
      (usr2.return_book b), L2.borrow_requests, L2.user_book_graph⟩ with hL3def
  have h3u : dictGet L3.users u = some (usr2.return_book b) := by
    rw [hL3def]
    exact dictGet_dictSet_same _ _ _ (by rw [h2u]; rfl)
  have h3b : dictGet L3.books b = some bk3 := by
    rw [hL3def]
    exact dictGet_dictSet_same _ _ _ (by rw [h2b]; rfl)
  have hnot3 : b ∉ (usr2.return_book b).borrowed_books := by
    show b ∉ usr2.borrowed_books.filter (fun x => x != b)
    intro hx
    have := List.of_mem_filter hx
    simp at this
  have heq4 := return_book_eq_found L3 u b (usr2.return_book b) bk3 h3u h3b
  rw [if_neg hnot3] at heq4
  refine ⟨hr1, hr2, ⟨usr2, h2u, ?_, ?_⟩, ⟨L3, heq3, heq4, bk3, h3b, hav3⟩⟩
  · rw [hbor2, setInsert_of_not_mem _ _ hnb, List.count_append,
      List.count_eq_zero.mpr hnb]
    simp
  · have hh : usr2.history = (usr.history ++ [b]) ++ [b] := by
      rw [husr2def, husr1def]
      rfl
    rw [hh, List.count_append, List.count_append]
    simp

/-- Witness for C10: the scenario run on the concrete two-copy catalog. -/
theorem double_borrow_single_return_witness :
    (sampleLib2.borrow_book "u1" "b1").2 = true ∧
    ((sampleLib2.borrow_book "u1" "b1").1.borrow_book "u1" "b1").2 = true ∧
    (∃ usr2, dictGet
        (((sampleLib2.borrow_book "u1" "b1").1.borrow_book "u1" "b1").1).users "u1"
        = some usr2 ∧
      usr2.borrowed_books.count "b1" = 1 ∧
      usr2.history.count "b1" = List.count "b1" ([] : List String) + 2) ∧
    (∃ L3, (((sampleLib2.borrow_book "u1" "b1").1.borrow_book "u1" "b1").1).return_book
        "u1" "b1" = some (L3, true) ∧
      L3.return_book "u1" "b1" = some (L3, false) ∧
      (∃ bk3, dictGet L3.books "b1" = some bk3 ∧
        bk3.available_copies = (2 : Int) - 1)) :=
  double_borrow_single_return sampleLib2 "u1" "b1" ⟨"u1", "N", [], [], []⟩
    ⟨"b1", "T", "A", "g", 2, 2, 0⟩ (by decide) (by decide) (by decide) (by decide)
    (by decide)


/-! ### Claim C5: borrow then return round-trip -/

/-- Counterexample to C5 as stated: a state reachable with the public
operations (add a one-copy book, add a user, then
`update_book("b1", _available_copies=2)`, which re-validates nothing) in
which `borrow_book` succeeds but the immediately following `return_book`
raises `ValueError` instead of succeeding. -/
theorem borrow_then_return_counterexample :
    (((((Library.empty.add_book ⟨"b1", "T", "A", "g", 1, 1, 0⟩).add_user
        ⟨"u1", "N", [], [], []⟩).update_book "b1"
        [BookUpdate.set_available_copies 2]).1).borrow_book "u1" "b1").2 = true ∧
    ((((((Library.empty.add_book ⟨"b1", "T", "A", "g", 1, 1, 0⟩).add_user
        ⟨"u1", "N", [], [], []⟩).update_book "b1"
        [BookUpdate.set_available_copies 2]).1).borrow_book "u1" "b1").1).return_book
        "u1" "b1" = none := by
  constructor
  · decide
  · decide

/-- C5 (amended): in every state where the book satisfies the data-model
invariant `available_copies ≤ total_copies` and `borrow_book(u, b)` succeeds,
the immediately following `return_book(u, b)` succeeds, restores the book's
`available_copies` to its pre-borrow value, removes `b` from the user's
borrowed set, and leaves the history entry appended by the borrow in place. -/
theorem borrow_then_return_roundtrip (L : Library) (u b : String) (usr : User)
    (bk : Book) (hu : dictGet L.users u = some usr)
    (hb : dictGet L.books b = some bk)
    (hinv : bk.available_copies ≤ bk.total_copies)
    (hsucc : (L.borrow_book u b).2 = true) :
    ∃ L2, ((L.borrow_book u b).1).return_book u b = some (L2, true) ∧
      (∃ bk2, dictGet L2.books b = some bk2 ∧
        bk2.available_copies = bk.available_copies ∧
        bk2.total_copies = bk.total_copies) ∧
      (∃ usr2, dictGet L2.users u = some usr2 ∧
        b ∉ usr2.borrowed_books ∧
        usr2.history = usr.history ++ [b]) := by
  have hpos : 0 < bk.available_copies := by
    by_contra hz
    have := (borrow_book_spec L u b).2.2.1 usr bk hu hb (by omega)
    rw [this] at hsucc
    exact absurd hsucc (by simp)
  set bk1 : Book := { bk with available_copies := bk.available_copies - 1,
                              borrow_count := bk.borrow_count + 1 } with hbk1def
  have hav1 : bk1.available_copies = bk.available_copies - 1 := by rw [hbk1def]
  have htot1 : bk1.total_copies = bk.total_copies := by rw [hbk1def]
  set usr1 : User := usr.borrow b with husr1def
  have hbo1 : bk.borrow_one = some bk1 := by
    unfold Book.borrow_one
    rw [if_neg (by omega)]
  have heq1 := borrow_book_eq_found L u b usr bk hu hb
  rw [hbo1] at heq1
  set L1 : Library := (L.borrow_book u b).1 with hL1def
  have hL1 : L1 = ⟨dictSet L.books b bk1, dictSet L.users u usr1,
      L.borrow_requests,
      L.user_book_graph.add_edge ("user:" ++ u) ("book:" ++ b)⟩ := by
    rw [hL1def, heq1]
  have h1u : dictGet L1.users u = some usr1 := by
    rw [hL1]
    exact dictGet_dictSet_same _ _ _ (by rw [hu]; rfl)
  have h1b : dictGet L1.books b = some bk1 := by
    rw [hL1]
    exact dictGet_dictSet_same _ _ _ (by rw [hb]; rfl)
  have hmem1 : b ∈ usr1.borrowed_books := by
    rw [husr1def]
    show b ∈ setInsert b usr.borrowed_books
    rw [mem_setInsert]
    exact Or.inl rfl
  set bk2 : Book := { bk1 with available_copies := bk1.available_copies + 1 }
    with hbk2def
  have hav2 : bk2.available_copies = bk.available_copies := by
    have h9 : bk2.available_copies = bk1.available_copies + 1 := rfl
    rw [h9, hav1]
    omega
  have htot2 : bk2.total_copies = bk.total_copies := by
    have h9 : bk2.total_copies = bk1.total_copies := rfl
    rw [h9, htot1]
  have hro : bk1.return_one = some bk2 := by
    unfold Book.return_one
    rw [if_neg (by rw [hav1, htot1]; omega)]
  have heq2 := return_book_eq_found L1 u b usr1 bk1 h1u h1b
  rw [if_pos hmem1, hro] at heq2
  refine ⟨_, heq2, ⟨bk2, ?_, hav2, htot2⟩, ⟨usr1.return_book b, ?_, ?_, ?_⟩⟩
  · exact dictGet_dictSet_same _ _ _ (by rw [h1b]; rfl)
  · exact dictGet_dictSet_same _ _ _ (by rw [h1u]; rfl)
  · show b ∉ usr1.borrowed_books.filter (fun x => x != b)
    intro hx
    have := List.of_mem_filter hx
    simp at this
  · rw [husr1def]
    rfl

/-- Witness for C5 (amended): the round-trip run on the concrete one-copy
catalog. -/
theorem borrow_then_return_roundtrip_witness :
    ∃ L2, ((sampleLib.borrow_book "u1" "b1").1).return_book "u1" "b1"
        = some (L2, true) ∧
      (∃ bk2, dictGet L2.books "b1" = some bk2 ∧
        bk2.available_copies = (1 : Int) ∧
        bk2.total_copies = (1 : Int)) ∧
      (∃ usr2, dictGet L2.users "u1" = some usr2 ∧
        "b1" ∉ usr2.borrowed_books ∧
        usr2.history = ([] : List String) ++ ["b1"]) :=
  borrow_then_return_roundtrip sampleLib "u1" "b1" ⟨"u1", "N", [], [], []⟩
    ⟨"b1", "T", "A", "g", 1, 1, 0⟩ (by decide) (by decide) (by decide) (by decide)


/-! ### Claim C2: over-return is (or is not) caller-triggerable -/

/-- One public catalog operation, entity construction included where the
operation receives a freshly constructed entity. `add_user` registers a fresh
user (empty borrowed set and history), the way the application constructs
users. -/
inductive LibOp where
  | add_book (item_id title author genre : String) (total avail borrow : Int)
  | remove_book (book_id : String)
  | update_book (book_id : String) (updates : List BookUpdate)
  | add_user (user_id name : String) (interests : List String)
  | borrow_book (user_id book_id : String)
  | return_book (user_id book_id : String)
  | enqueue_borrow_request (user_id book_id : String)
  | process_next_borrow
deriving DecidableEq, Repr

/-- Observable state after one public operation. A failed entity construction
(`ValueError` from `__post_init__`) or a raising `return_book` leaves the
state unchanged, since the raise precedes any mutation. -/
def applyOp (L : Library) : LibOp → Library
  | .add_book i t a g tot av bor =>
      match Book.post_init ⟨i, t, a, g, tot, av, bor⟩ with
      | none => L
      | some bk => L.add_book bk
  | .remove_book b => (L.remove_book b).1
  | .update_book b us => (L.update_book b us).1
  | .add_user i n ints =>
      match User.post_init ⟨i, n, ints, [], []⟩ with
      | none => L
      | some usr => L.add_user usr
  | .borrow_book u b => (L.borrow_book u b).1
  | .return_book u b => L.return_book_st u b
  | .enqueue_borrow_request u b => L.enqueue_borrow_request u b
  | .process_next_borrow => (L.process_next_borrow).1

/-- Observable state after a sequence of public operations. -/
def runOps (ops : List LibOp) (L : Library) : Library := ops.foldl applyOp L

/-- Operations other than `remove_book` and `update_book`. -/
def LibOp.isSafe : LibOp → Bool
  | .remove_book _ => false
  | .update_book _ _ => false
  | _ => true

/-- Counterexample to C2 as stated: borrow a one-copy book, `remove_book` it,
re-add a fresh one-copy record under the same id (all public operations);
`return_book` then reaches the over-return guard and raises. -/
theorem return_book_raises_counterexample :
    (runOps [LibOp.add_book "b1" "T" "A" "g" 1 1 0, LibOp.add_user "u1" "N" [],
        LibOp.borrow_book "u1" "b1", LibOp.remove_book "b1",
        LibOp.add_book "b1" "T" "A" "g" 1 1 0]
      Library.empty).return_book "u1" "b1" = none := by decide

theorem dictGet_eq_none_iff {α : Type} (m : List (String × α)) (k : String) :
    dictGet m k = none ↔ k ∉ m.map Prod.fst := by
  induction m with
  | nil => simp [dictGet]
  | cons p m ih =>
      rw [dictGet, List.map_cons, List.mem_cons]
      by_cases hp : p.1 = k
      · rw [if_pos hp]
        constructor
        · intro h
          exact absurd h (by simp)
        · intro hnot
          exact (hnot (Or.inl hp.symm)).elim
      · rw [if_neg hp, ih]
        constructor
        · intro hnm hor
          rcases hor with h1 | h1
          · exact hp h1.symm
          · exact hnm h1
        · intro hall h1
          exact hall (Or.inr h1)

theorem dictGet_some_mem {α : Type} (m : List (String × α)) (k : String) (x : α)
    (h : dictGet m k = some x) : (k, x) ∈ m := by
  induction m with
  | nil => simp [dictGet] at h
  | cons p m ih =>
      by_cases hp : p.1 = k
      · rw [dictGet, if_pos hp] at h
        cases h
        rw [← hp]
        exact List.mem_cons_self _ _
      · rw [dictGet, if_neg hp] at h
        exact List.mem_cons_of_mem _ (ih h)

theorem keys_dictSet {α : Type} (m : List (String × α)) (k : String) (v : α) :
    (dictSet m k v).map Prod.fst = m.map Prod.fst := by
  induction m with
  | nil => rfl
  | cons p m ih =>
      by_cases hp : p.1 = k
      · simp [dictSet, hp, ih]
      · simp [dictSet, hp, ih]

theorem mem_dictSet {α : Type} (m : List (String × α)) (k : String) (v : α)
    (p : String × α) (h : p ∈ dictSet m k v) : p ∈ m ∨ p = (k, v) := by
  induction m with
  | nil => simp [dictSet] at h
  | cons q m ih =>
      by_cases hq : q.1 = k
      · rw [dictSet, if_pos hq] at h
        rcases List.mem_cons.mp h with h1 | h1
        · exact Or.inr h1
        · rcases ih h1 with h2 | h2
          · exact Or.inl (List.mem_cons_of_mem _ h2)
          · exact Or.inr h2
      · rw [dictSet, if_neg hq] at h
        rcases List.mem_cons.mp h with h1 | h1
        · exact Or.inl (List.mem_cons.mpr (Or.inl h1))
        · rcases ih h1 with h2 | h2
          · exact Or.inl (List.mem_cons_of_mem _ h2)
          · exact Or.inr h2

theorem dictSet_eq_self_of_none {α : Type} (m : List (String × α)) (k : String)
    (v : α) (h : dictGet m k = none) : dictSet m k v = m := by
  induction m with
  | nil => rfl
  | cons p m ih =>
      rw [dictGet] at h
      by_cases hp : p.1 = k
      · rw [if_pos hp] at h
        exact absurd h (by simp)
      · rw [if_neg hp] at h
        rw [dictSet, if_neg hp, ih h]

theorem isSome_dictGet_dictSet {α : Type} (m : List (String × α)) (k x : String)
    (v : α) : (dictGet (dictSet m k v) x).isSome = (dictGet m x).isSome := by
  by_cases hx : x = k
  · subst hx
    cases h : dictGet m x with
    | none => rw [dictSet_eq_self_of_none m x v h, h]
    | some y =>
        rw [dictGet_dictSet_same m x v (by rw [h]; rfl)]
        rfl
  · rw [dictGet_dictSet_other m k x v (fun hh => hx hh.symm)]

theorem countP_dictSet {α : Type} (m : List (String × α)) (u : String) (v : α)
    (q : String × α → Bool) (hnodup : (m.map Prod.fst).Nodup) (x : α)
    (hx : dictGet m u = some x) :
    (dictSet m u v).countP q + (if q (u, x) then 1 else 0)
      = m.countP q + (if q (u, v) then 1 else 0) := by
  induction m with
  | nil => simp [dictGet] at hx
  | cons p m ih =>
      rw [List.map_cons, List.nodup_cons] at hnodup
      by_cases hp : p.1 = u
      · rw [dictGet, if_pos hp] at hx
        have hpx : p = (u, x) := by
          cases hx
          rw [← hp]
        have hnone : dictGet m u = none := by
          rw [dictGet_eq_none_iff, ← hp]
          exact hnodup.1
        rw [dictSet, if_pos hp, dictSet_eq_self_of_none m u v hnone]
        rw [List.countP_cons, List.countP_cons, hpx]
        omega
      · rw [dictGet, if_neg hp] at hx
        rw [dictSet, if_neg hp, List.countP_cons, List.countP_cons]
        have := ih hnodup.2 hx
        omega

/-- `Book.__post_init__` output satisfies the construction-time invariant and
keeps the id. -/
theorem book_post_init_inv (b bk1 : Book) (h : Book.post_init b = some bk1) :
    0 ≤ bk1.available_copies ∧ bk1.available_copies ≤ bk1.total_copies ∧
    bk1.item_id = b.item_id := by
  unfold Book.post_init at h
  split at h
  · exact absurd h (by simp)
  · split at h
    · exact absurd h (by simp)
    · rename_i h1 h2
      by_cases hcl : b.available_copies < 0 ∨ b.available_copies > b.total_copies
      · rw [if_pos hcl] at h
        simp only at h
        split at h
        · exact absurd h (by simp)
        · cases h
          refine ⟨?_, ?_, rfl⟩
          · show (0 : Int) ≤ b.total_copies
            omega
          · show b.total_copies ≤ b.total_copies
            omega
      · rw [if_neg hcl] at h
        simp only at h
        split at h
        · exact absurd h (by simp)
        · cases h
          push_neg at hcl
          exact ⟨by omega, by omega, rfl⟩

/-- `User.__post_init__` keeps the id and the borrowed set. -/
theorem user_post_init_fields (u usr1 : User) (h : User.post_init u = some usr1) :
    usr1.user_id = u.user_id ∧ usr1.borrowed_books = u.borrowed_books := by
  unfold User.post_init at h
  split at h
  · exact absurd h (by simp)
  · cases h
    exact ⟨rfl, rfl⟩


/-- Strengthened case split for `dictGet` after `dictSet`: the untouched case
comes with the key disequality. -/
theorem dictGet_dictSet_cases_ne {α : Type} (m : List (String × α)) (k b : String)
    (v : α) (w : α) (h : dictGet (dictSet m k v) b = some w) :
    (b = k ∧ w = v) ∨ (b ≠ k ∧ dictGet m b = some w) := by
  by_cases hbk : b = k
  · rcases dictGet_dictSet_cases m k b v w h with h1 | h1
    · exact Or.inl h1
    · subst hbk
      rcases dictGet_dictSet_cases m b b v w h with h2 | h2
      · exact Or.inl h2
      · cases hget : dictGet m b with
        | none =>
            rw [dictSet_eq_self_of_none m b v hget] at h
            rw [h] at hget
            exact absurd hget (by simp)
        | some y =>
            rw [dictGet_dictSet_same m b v (by rw [hget]; rfl)] at h
            cases h
            exact Or.inl ⟨rfl, rfl⟩
  · rw [dictGet_dictSet_other m k b v (fun hh => hbk hh.symm)] at h
    exact Or.inr ⟨hbk, h⟩

/-- Equation for `add_book` when the id already exists (merge of counts). -/
theorem add_book_eq_merge (L : Library) (bk existing : Book)
    (h : dictGet L.books bk.item_id = some existing) :
    L.add_book bk = ⟨dictSet L.books bk.item_id
        ({ existing with
            total_copies := existing.total_copies + bk.total_copies,
            available_copies := existing.available_copies + bk.available_copies }),
      L.users, L.borrow_requests, L.user_book_graph⟩ := by
  unfold Library.add_book
  rw [h]

/-- Equation for `add_book` when the id is fresh. -/
theorem add_book_eq_fresh (L : Library) (bk : Book)
    (h : dictGet L.books bk.item_id = none) :
    L.add_book bk = ⟨L.books ++ [(bk.item_id, bk)], L.users, L.borrow_requests,
      L.user_book_graph.add_node ("book:" ++ bk.item_id)⟩ := by
  unfold Library.add_book
  rw [h]

/-- Equation for `add_user` when the id already exists (no-op). -/
theorem add_user_eq_dup (L : Library) (usr x : User)
    (h : dictGet L.users usr.user_id = some x) : L.add_user usr = L := by
  unfold Library.add_user
  rw [h]

/-- Equation for `add_user` when the id is fresh. -/
theorem add_user_eq_fresh (L : Library) (usr : User)
    (h : dictGet L.users usr.user_id = none) :
    L.add_user usr = ⟨L.books, L.users ++ [(usr.user_id, usr)],
      L.borrow_requests, L.user_book_graph.add_node ("user:" ++ usr.user_id)⟩ := by
  unfold Library.add_user
  rw [h]

theorem return_book_st_of_some (L L1 : Library) (u b : String) (r : Bool)
    (h : L.return_book u b = some (L1, r)) : L.return_book_st u b = L1 := by
  unfold Library.return_book_st
  rw [h]

theorem return_book_st_of_none (L : Library) (u b : String)
    (h : L.return_book u b = none) : L.return_book_st u b = L := by
  unfold Library.return_book_st
  rw [h]

/-- Number of user entries currently holding book id `b` in their borrowed
set. -/
def borrowersOf (users : List (String × User)) (b : String) : Nat :=
  users.countP (fun p => decide (b ∈ p.2.borrowed_books))

/-- Consistency invariant tying available copies to outstanding borrows:
user keys are unique, every book's available count plus its outstanding
borrows stays within `total_copies` (and is nonnegative), and every borrowed
id denotes a present book. -/
structure C2Inv (L : Library) : Prop where
  users_nodup : (L.users.map Prod.fst).Nodup
  count_ok : ∀ b bk, dictGet L.books b = some bk →
    0 ≤ bk.available_copies ∧
    bk.available_copies + (borrowersOf L.users b : Int) ≤ bk.total_copies
  borrowed_known : ∀ p, p ∈ L.users → ∀ b, b ∈ p.2.borrowed_books →
    (dictGet L.books b).isSome = true

/-- The invariant only reads the book and user stores. -/
theorem C2Inv_of_eq (L L1 : Library) (hb : L1.books = L.books)
    (hu : L1.users = L.users) (hinv : C2Inv L) : C2Inv L1 := by
  constructor
  · rw [hu]
    exact hinv.users_nodup
  · intro b bk h
    rw [hb] at h
    rw [hu]
    exact hinv.count_ok b bk h
  · intro p hp b hbmem
    rw [hu] at hp
    rw [hb]
    exact hinv.borrowed_known p hp b hbmem

theorem C2Inv_empty : C2Inv Library.empty := by
  constructor
  · exact List.nodup_nil
  · intro b bk h
    exact absurd h (by simp [Library.empty, dictGet])
  · intro p hp
    exact absurd hp (by simp [Library.empty])


theorem borrowersOf_append (users : List (String × User)) (p : String × User)
    (b : String) :
    borrowersOf (users ++ [p]) b
      = borrowersOf users b + (if b ∈ p.2.borrowed_books then 1 else 0) := by
  unfold borrowersOf
  rw [List.countP_append]
  congr 1
  simp [List.countP_cons]

theorem borrowersOf_dictSet (users : List (String × User)) (u : String)
    (usr usr1 : User) (b : String) (hnodup : (users.map Prod.fst).Nodup)
    (hu : dictGet users u = some usr) :
    borrowersOf (dictSet users u usr1) b + (if b ∈ usr.borrowed_books then 1 else 0)
      = borrowersOf users b + (if b ∈ usr1.borrowed_books then 1 else 0) := by
  have h := countP_dictSet users u usr1
    (fun p => decide (b ∈ p.2.borrowed_books)) hnodup usr hu
  unfold borrowersOf
  simpa using h

/-- `add_book` of a book whose counts satisfy the construction invariant
preserves the consistency invariant. -/
theorem C2Inv_add_book (L : Library) (bk : Book) (h0 : 0 ≤ bk.available_copies)
    (h1 : bk.available_copies ≤ bk.total_copies) (hinv : C2Inv L) :
    C2Inv (L.add_book bk) := by
  cases hex : dictGet L.books bk.item_id with
  | some existing =>
      rw [add_book_eq_merge L bk existing hex]
      refine ⟨hinv.users_nodup, ?_, ?_⟩
      · intro b bk1 hget
        rcases dictGet_dictSet_cases_ne _ _ _ _ _ hget with ⟨hb2, hbk2⟩ | ⟨hne, hold⟩
        · subst hb2
          subst hbk2
          have hex2 := hinv.count_ok _ existing hex
          constructor
          · show (0 : Int) ≤ existing.available_copies + bk.available_copies
            omega
          · show existing.available_copies + bk.available_copies
                + (borrowersOf L.users bk.item_id : Int)
                ≤ existing.total_copies + bk.total_copies
            omega
        · exact hinv.count_ok b bk1 hold
      · intro p hp b hbmem
        rw [isSome_dictGet_dictSet]
        exact hinv.borrowed_known p hp b hbmem
  | none =>
      rw [add_book_eq_fresh L bk hex]
      refine ⟨hinv.users_nodup, ?_, ?_⟩
      · intro b bk1 hget
        cases hb : dictGet L.books b with
        | some x =>
            rw [dictGet_append_of_some _ _ _ _ hb] at hget
            cases hget
            exact hinv.count_ok b bk1 hb
        | none =>
            rw [dictGet_append_of_none _ _ _ hb] at hget
            rw [dictGet] at hget
            by_cases hid : bk.item_id = b
            · rw [if_pos hid] at hget
              cases hget
              have hzero : borrowersOf L.users b = 0 := by
                unfold borrowersOf
                rw [List.countP_eq_zero]
                intro p hp
                simp only [decide_eq_true_eq]
                intro hmem
                have h2 := hinv.borrowed_known p hp _ hmem
                rw [hb] at h2
                simp at h2
              rw [hzero]
              constructor
              · exact h0
              · push_cast
                omega
            · rw [if_neg hid] at hget
              exact absurd hget (by simp [dictGet])
      · intro p hp b hbmem
        have h2 := hinv.borrowed_known p hp b hbmem
        cases hbg : dictGet L.books b with
        | none => rw [hbg] at h2; simp at h2
        | some y =>
            rw [dictGet_append_of_some _ _ _ _ hbg]
            rfl

/-- `add_user` of a user with an empty borrowed set preserves the
consistency invariant. -/
theorem C2Inv_add_user (L : Library) (usr : User)
    (hbor : usr.borrowed_books = []) (hinv : C2Inv L) : C2Inv (L.add_user usr) := by
  cases hex : dictGet L.users usr.user_id with
  | some x =>
      rw [add_user_eq_dup L usr x hex]
      exact hinv
  | none =>
      rw [add_user_eq_fresh L usr hex]
      refine ⟨?_, ?_, ?_⟩
      · show (List.map Prod.fst (L.users ++ [(usr.user_id, usr)])).Nodup
        rw [List.map_append, List.nodup_append]
        refine ⟨hinv.users_nodup, List.nodup_singleton _, ?_⟩
        intro a ha hmem
        simp only [List.map_cons, List.map_nil, List.mem_singleton] at hmem
        subst hmem
        exact (dictGet_eq_none_iff L.users usr.user_id).mp hex ha
      · intro b bk hget
        show 0 ≤ bk.available_copies ∧ bk.available_copies
          + (borrowersOf (L.users ++ [(usr.user_id, usr)]) b : Int) ≤ bk.total_copies
        rw [borrowersOf_append]
        simp only [hbor, List.not_mem_nil, if_false]
        exact hinv.count_ok b bk hget
      · intro p hp b hbmem
        rcases List.mem_append.mp hp with h2 | h2
        · exact hinv.borrowed_known p h2 b hbmem
        · simp only [List.mem_singleton] at h2
          subst h2
          simp only at hbmem
          rw [hbor] at hbmem
          simp at hbmem

/-- `borrow_book` preserves the consistency invariant. -/
theorem C2Inv_borrow_book (L : Library) (u b : String) (hinv : C2Inv L) :
    C2Inv (L.borrow_book u b).1 := by
  cases hu : dictGet L.users u with
  | none =>
      rw [borrow_book_eq_user_none L u b hu]
      exact hinv
  | some usr =>
    cases hb : dictGet L.books b with
    | none =>
        rw [borrow_book_eq_book_none L u b usr hu hb]
        exact hinv
    | some bk =>
      have heq := borrow_book_eq_found L u b usr bk hu hb
      cases hbo : bk.borrow_one with
      | none =>
          rw [hbo] at heq
          rw [heq]
          exact hinv
      | some bk1 =>
          rw [hbo] at heq
          rw [heq]
          have hpos : 0 < bk.available_copies := by
            unfold Book.borrow_one at hbo
            by_cases hz : bk.available_copies ≤ 0
            · rw [if_pos hz] at hbo
              exact absurd hbo (by simp)
            · omega
          have hbk1 : bk1 =
              { bk with available_copies := bk.available_copies - 1,
                        borrow_count := bk.borrow_count + 1 } := by
            unfold Book.borrow_one at hbo
            rw [if_neg (by omega)] at hbo
            cases hbo
            rfl
          refine ⟨?_, ?_, ?_⟩
          · show (List.map Prod.fst (dictSet L.users u (usr.borrow b))).Nodup
            rw [keys_dictSet]
            exact hinv.users_nodup
          · intro b2 bk2 hget
            have hcnt := borrowersOf_dictSet L.users u usr (usr.borrow b) b2
              hinv.users_nodup hu
            rcases dictGet_dictSet_cases_ne _ _ _ _ _ hget with ⟨hb2, hbk2⟩ |
              ⟨hne, hold⟩
            · have hb2s : b = b2 := hb2.symm
              subst hb2s
              subst hbk2
              rw [hbk1]
              have hc := hinv.count_ok b bk hb
              have hq1 : b ∈ (usr.borrow b).borrowed_books := by
                show b ∈ setInsert b usr.borrowed_books
                rw [mem_setInsert]
                exact Or.inl rfl
              rw [if_pos hq1] at hcnt
              constructor
              · show (0 : Int) ≤ bk.available_copies - 1
                omega
              · show bk.available_copies - 1
                  + (borrowersOf (dictSet L.users u (usr.borrow b)) b : Int)
                  ≤ bk.total_copies
                omega
            · have hmemiff : (b2 ∈ (usr.borrow b).borrowed_books)
                  ↔ b2 ∈ usr.borrowed_books := by
                show b2 ∈ setInsert b usr.borrowed_books ↔ b2 ∈ usr.borrowed_books
                rw [mem_setInsert]
                constructor
                · rintro (rfl | h2)
                  · exact absurd rfl hne
                  · exact h2
                · exact Or.inr
              have hcc : borrowersOf (dictSet L.users u (usr.borrow b)) b2
                  = borrowersOf L.users b2 := by
                by_cases hm : b2 ∈ usr.borrowed_books
                · rw [if_pos hm, if_pos (hmemiff.mpr hm)] at hcnt
                  omega
                · rw [if_neg hm, if_neg (fun hh => hm (hmemiff.mp hh))] at hcnt
                  omega
              have hc := hinv.count_ok b2 bk2 hold
              rw [hcc]
              exact hc
          · intro p hp b2 hbmem
            rw [isSome_dictGet_dictSet]
            rcases mem_dictSet _ _ _ _ hp with h2 | h2
            · exact hinv.borrowed_known p h2 b2 hbmem
            · subst h2
              simp only at hbmem
              rcases (mem_setInsert b2 b usr.borrowed_books).mp hbmem with rfl | h3
              · rw [hb]
                rfl
              · exact hinv.borrowed_known (u, usr) (dictGet_some_mem _ _ _ hu) b2 h3

/-- `return_book` (observable state, raises included) preserves the
consistency invariant. -/
theorem C2Inv_return_book_st (L : Library) (u b : String) (hinv : C2Inv L) :
    C2Inv (L.return_book_st u b) := by
  cases hu : dictGet L.users u with
  | none =>
      rw [return_book_st_of_some L L u b false (return_book_eq_user_none L u b hu)]
      exact hinv
  | some usr =>
    cases hb : dictGet L.books b with
    | none =>
        rw [return_book_st_of_some L L u b false
          (return_book_eq_book_none L u b usr hu hb)]
        exact hinv
    | some bk =>
      have heq := return_book_eq_found L u b usr bk hu hb
      by_cases hmem : b ∈ usr.borrowed_books
      · rw [if_pos hmem] at heq
        cases hro : bk.return_one with
        | none =>
            rw [hro] at heq
            rw [return_book_st_of_none L u b heq]
            exact hinv
        | some bk1 =>
            rw [hro] at heq
            rw [return_book_st_of_some L _ u b true heq]
            have hlt : bk.available_copies < bk.total_copies := by
              unfold Book.return_one at hro
              by_cases hz : bk.available_copies ≥ bk.total_copies
              · rw [if_pos hz] at hro
                exact absurd hro (by simp)
              · omega
            have hbk1 : bk1 = { bk with
                available_copies := bk.available_copies + 1 } := by
              unfold Book.return_one at hro
              rw [if_neg (by omega)] at hro
              cases hro
              rfl
            refine ⟨?_, ?_, ?_⟩
            · show (List.map Prod.fst (dictSet L.users u (usr.return_book b))).Nodup
              rw [keys_dictSet]
              exact hinv.users_nodup
            · intro b2 bk2 hget
              have hcnt := borrowersOf_dictSet L.users u usr (usr.return_book b) b2
                hinv.users_nodup hu
              rcases dictGet_dictSet_cases_ne _ _ _ _ _ hget with ⟨hb2, hbk2⟩ |
                ⟨hne, hold⟩
              · have hb2s : b = b2 := hb2.symm
                subst hb2s
                subst hbk2
                rw [hbk1]
                have hc := hinv.count_ok b bk hb
                have hq0 : b ∉ (usr.return_book b).borrowed_books := by
                  show b ∉ usr.borrowed_books.filter (fun x => x != b)
                  intro hx
                  have h3 := List.of_mem_filter hx
                  simp at h3
                rw [if_pos hmem, if_neg hq0] at hcnt
                constructor
                · show (0 : Int) ≤ bk.available_copies + 1
                  omega
                · show bk.available_copies + 1
                    + (borrowersOf (dictSet L.users u (usr.return_book b)) b : Int)
                    ≤ bk.total_copies
                  omega
              · have hmemiff : (b2 ∈ (usr.return_book b).borrowed_books)
                    ↔ b2 ∈ usr.borrowed_books := by
                  show b2 ∈ usr.borrowed_books.filter (fun x => x != b)
                    ↔ b2 ∈ usr.borrowed_books
                  constructor
                  · intro hx
                    exact (List.mem_filter.mp hx).1
                  · intro hx
                    exact List.mem_filter.mpr ⟨hx, by simp [hne]⟩
                have hcc : borrowersOf (dictSet L.users u (usr.return_book b)) b2
                    = borrowersOf L.users b2 := by
                  by_cases hm : b2 ∈ usr.borrowed_books
                  · rw [if_pos hm, if_pos (hmemiff.mpr hm)] at hcnt
                    omega
                  · rw [if_neg hm, if_neg (fun hh => hm (hmemiff.mp hh))] at hcnt
                    omega
                have hc := hinv.count_ok b2 bk2 hold
                rw [hcc]
                exact hc
            · intro p hp b2 hbmem
              rw [isSome_dictGet_dictSet]
              rcases mem_dictSet _ _ _ _ hp with h2 | h2
              · exact hinv.borrowed_known p h2 b2 hbmem
              · subst h2
                simp only at hbmem
                have h3 : b2 ∈ usr.borrowed_books := (List.mem_filter.mp hbmem).1
                exact hinv.borrowed_known (u, usr) (dictGet_some_mem _ _ _ hu) b2 h3
      · rw [if_neg hmem] at heq
        rw [return_book_st_of_some L L u b false heq]
        exact hinv


/-- Every safe public operation preserves the consistency invariant. -/
theorem C2Inv_applyOp (L : Library) (op : LibOp) (hsafe : op.isSafe = true)
    (hinv : C2Inv L) : C2Inv (applyOp L op) := by
  cases op with
  | add_book i t a g tot av bor =>
      simp only [applyOp]
      cases hpi : Book.post_init ⟨i, t, a, g, tot, av, bor⟩ with
      | none => exact hinv
      | some bk =>
          have h := book_post_init_inv _ _ hpi
          exact C2Inv_add_book L bk h.1 h.2.1 hinv
  | remove_book b => exact absurd hsafe (by simp [LibOp.isSafe])
  | update_book b us => exact absurd hsafe (by simp [LibOp.isSafe])
  | add_user i n ints =>
      simp only [applyOp]
      cases hpi : User.post_init ⟨i, n, ints, [], []⟩ with
      | none => exact hinv
      | some usr =>
          have h := user_post_init_fields _ _ hpi
          exact C2Inv_add_user L usr h.2 hinv
  | borrow_book u b => exact C2Inv_borrow_book L u b hinv
  | return_book u b => exact C2Inv_return_book_st L u b hinv
  | enqueue_borrow_request u b => exact C2Inv_of_eq L _ rfl rfl hinv
  | process_next_borrow =>
      show C2Inv (L.process_next_borrow).1
      cases hq : L.borrow_requests with
      | nil =>
          have h : L.process_next_borrow = (L, false) := by
            unfold Library.process_next_borrow
            rw [hq]
          rw [h]
          exact hinv
      | cons req rest =>
          obtain ⟨u, b⟩ := req
          rw [process_next_eq_cons L u b rest hq]
          exact C2Inv_borrow_book _ u b (C2Inv_of_eq L _ rfl rfl hinv)

/-- The consistency invariant holds in every state reachable from the empty
catalog without `remove_book` / `update_book`. -/
theorem C2Inv_runOps (ops : List LibOp) (hsafe : ∀ op ∈ ops, op.isSafe = true)
    (L : Library) (hinv : C2Inv L) : C2Inv (runOps ops L) := by
  induction ops generalizing L with
  | nil => exact hinv
  | cons op ops ih =>
      exact ih (fun o ho => hsafe o (List.mem_cons_of_mem _ ho)) _
        (C2Inv_applyOp L op (hsafe op (List.mem_cons_self _ _)) hinv)

/-- Under the consistency invariant, `return_book` never reaches the
over-return raise: it always returns a boolean result. -/
theorem C2Inv_return_book_isSome (L : Library) (hinv : C2Inv L) (u b : String) :
    ∃ res, L.return_book u b = some res := by
  cases hu : dictGet L.users u with
  | none => exact ⟨(L, false), return_book_eq_user_none L u b hu⟩
  | some usr =>
    cases hb : dictGet L.books b with
    | none => exact ⟨(L, false), return_book_eq_book_none L u b usr hu hb⟩
    | some bk =>
      have heq := return_book_eq_found L u b usr bk hu hb
      by_cases hmem : b ∈ usr.borrowed_books
      · rw [if_pos hmem] at heq
        have hcnt : 1 ≤ borrowersOf L.users b := by
          unfold borrowersOf
          have h2 : 0 < List.countP (fun p => decide (b ∈ p.2.borrowed_books))
              L.users := by
            rw [List.countP_pos_iff]
            exact ⟨(u, usr), dictGet_some_mem _ _ _ hu, by simpa using hmem⟩
          omega
        have hc := hinv.count_ok b bk hb
        obtain ⟨bk1, hro⟩ : ∃ bk1, bk.return_one = some bk1 := by
          unfold Book.return_one
          rw [if_neg (by omega)]
          exact ⟨_, rfl⟩
        rw [hro] at heq
        exact ⟨_, heq⟩
      · rw [if_neg hmem] at heq
        exact ⟨(L, false), heq⟩

/-- C2 (amended): in every state reachable from the empty catalog by public
operations other than `remove_book` and `update_book`, `return_book` never
reaches the over-return raise: it always returns a boolean. (With
`remove_book` or `update_book` allowed the original claim fails, see the
counterexample.) -/
theorem return_book_total_without_remove_update (ops : List LibOp)
    (hsafe : ∀ op ∈ ops, op.isSafe = true) (u b : String) :
    ∃ res, (runOps ops Library.empty).return_book u b = some res :=
  C2Inv_return_book_isSome _ (C2Inv_runOps ops hsafe _ C2Inv_empty) u b

/-- Witness for C2 (amended): a concrete add/add/borrow run, then a return
that yields a boolean. -/
theorem return_book_total_without_remove_update_witness :
    ∃ res, (runOps [LibOp.add_book "b1" "T" "A" "g" 1 1 0,
        LibOp.add_user "u1" "N" [], LibOp.borrow_book "u1" "b1"]
      Library.empty).return_book "u1" "b1" = some res :=
  return_book_total_without_remove_update _ (by decide) "u1" "b1"


/-! ### Claim C6: BFS correctness -/

/-- All node names occurring in the adjacency structure (keys and neighbor
entries): the finite universe for the BFS termination measure. -/
def Graph.nodesUniv (g : Graph) : List String :=
  g.adj.map Prod.fst ++ (g.adj.map Prod.snd).flatten

/-- The inner neighbor loop of `Graph.bfs`: for each neighbor not yet
visited, mark it visited and append it to the queue at depth `d + 1`. -/
def bfsExpand (visited : List String) (queue : List (String × Nat)) (d : Nat) :
    List String → List String × List (String × Nat)
  | [] => (visited, queue)
  | n :: ns =>
      if n ∈ visited then bfsExpand visited queue d ns
      else bfsExpand (n :: visited) (queue ++ [(n, d + 1)]) d ns

/-- The fresh nodes the neighbor loop discovers, in neighbor order. -/
def newOf (visited : List String) : List String → List String
  | [] => []
  | n :: ns => if n ∈ visited then newOf visited ns else n :: newOf (n :: visited) ns

theorem bfsExpand_eq (visited : List String) (queue : List (String × Nat)) (d : Nat)
    (ns : List String) :
    bfsExpand visited queue d ns =
      ((newOf visited ns).reverse ++ visited,
       queue ++ (newOf visited ns).map (fun n => (n, d + 1))) := by
  induction ns generalizing visited queue with
  | nil => simp [bfsExpand, newOf]
  | cons n ns ih =>
      by_cases h : n ∈ visited
      · rw [bfsExpand, if_pos h, newOf, if_pos h, ih]
      · rw [bfsExpand, if_neg h, newOf, if_neg h, ih]
        simp

theorem newOf_subset (visited ns : List String) (x : String)
    (hx : x ∈ newOf visited ns) : x ∈ ns := by
  induction ns generalizing visited with
  | nil => simp [newOf] at hx
  | cons n ns ih =>
      rw [newOf] at hx
      split at hx
      · exact List.mem_cons_of_mem _ (ih _ hx)
      · rcases List.mem_cons.mp hx with rfl | h2
        · exact List.mem_cons_self _ _
        · exact List.mem_cons_of_mem _ (ih _ h2)

theorem newOf_fresh (visited ns : List String) (x : String)
    (hx : x ∈ newOf visited ns) : x ∉ visited := by
  induction ns generalizing visited with
  | nil => simp [newOf] at hx
  | cons n ns ih =>
      rw [newOf] at hx
      split at hx
      · exact ih _ hx
      · rcases List.mem_cons.mp hx with rfl | h2
        · rename_i h
          exact h
        · intro hv
          exact ih _ h2 (List.mem_cons_of_mem _ hv)

theorem newOf_nodup (visited ns : List String) : (newOf visited ns).Nodup := by
  induction ns generalizing visited with
  | nil => exact List.nodup_nil
  | cons n ns ih =>
      rw [newOf]
      split
      · exact ih _
      · rw [List.nodup_cons]
        refine ⟨?_, ih _⟩
        intro hmem
        exact newOf_fresh _ _ _ hmem (List.mem_cons_self _ _)

/-- Every neighbor not yet visited is discovered by the neighbor loop. -/
theorem newOf_complete (visited ns : List String) (x : String) (hx : x ∈ ns)
    (hfresh : x ∉ visited) : x ∈ newOf visited ns := by
  induction ns generalizing visited with
  | nil => simp at hx
  | cons n ns ih =>
      rw [newOf]
      by_cases hn : n ∈ visited
      · rw [if_pos hn]
        rcases List.mem_cons.mp hx with rfl | h2
        · exact absurd hn hfresh
        · exact ih _ h2 hfresh
      · rw [if_neg hn]
        by_cases hxn : x = n
        · subst hxn
          exact List.mem_cons_self _ _
        · rcases List.mem_cons.mp hx with rfl | h2
          · exact absurd rfl hxn
          · refine List.mem_cons_of_mem _ (ih _ h2 ?_)
            intro hv
            rcases List.mem_cons.mp hv with h3 | h3
            · exact hxn h3
            · exact hfresh h3

theorem countP_lt {α : Type} (l : List α) (p q : α → Bool)
    (hmono : ∀ x ∈ l, q x = true → p x = true) (x : α) (hx : x ∈ l)
    (hpx : p x = true) (hqx : q x = false) : l.countP q < l.countP p := by
  induction l with
  | nil => simp at hx
  | cons y l ih =>
      rw [List.countP_cons, List.countP_cons]
      rcases List.mem_cons.mp hx with rfl | h2
      · have hle : l.countP q ≤ l.countP p := List.countP_mono_left
          (fun a ha hqa => hmono a (List.mem_cons_of_mem _ ha) hqa)
        rw [hpx, hqx]
        simp only [if_true]
        have e0 : (if (false : Bool) = true then 1 else 0) = 0 := rfl
        rw [e0]
        omega
      · have hrec := ih (fun a ha h => hmono a (List.mem_cons_of_mem _ ha) h) h2
        have hy : (if q y then 1 else 0) ≤ (if p y then 1 else 0) := by
          by_cases h : q y = true
          · rw [if_pos h, if_pos (hmono y (List.mem_cons_self _ _) h)]
          · rw [Bool.not_eq_true] at h
            rw [h]
            simp
        omega

theorem neighborsOf_subset_univ (g : Graph) (n x : String)
    (hx : x ∈ g.neighborsOf n) : x ∈ g.nodesUniv := by
  unfold Graph.neighborsOf at hx
  cases h : g.adjOf n with
  | none => rw [h] at hx; simp at hx
  | some l =>
      rw [h] at hx
      simp only [Option.getD_some] at hx
      unfold Graph.adjOf at h
      have hmem := dictGet_some_mem _ _ _ h
      unfold Graph.nodesUniv
      rw [List.mem_append]
      right
      rw [List.mem_flatten]
      exact ⟨l, List.mem_map_of_mem Prod.snd hmem, hx⟩

/-- The worklist loop of `Graph.bfs` (the `while i < len(queue)` loop): the
argument list is the unprocessed queue suffix `queue[i:]`, new discoveries are
appended at its tail, and the returned list collects the processed entries in
order (the source's `order`). -/
def bfsLoop (g : Graph) (md : Nat) :
    List String → List (String × Nat) → List (String × Nat)
  | _, [] => []
  | visited, (node, depth) :: rest =>
      if md ≤ depth then
        (node, depth) :: bfsLoop g md visited rest
      else
        (node, depth) :: bfsLoop g md
          (bfsExpand visited rest depth (g.neighborsOf node)).1
          (bfsExpand visited rest depth (g.neighborsOf node)).2
termination_by visited pending =>
  (g.nodesUniv.countP (fun x => decide (x ∉ visited)), pending.length)
decreasing_by
  · apply Prod.Lex.right
    simp
  · rw [bfsExpand_eq]
    rcases hnew : newOf visited (g.neighborsOf node) with _ | ⟨n0, ns0⟩
    · apply Prod.Lex.right
      simp
    · apply Prod.Lex.left
      have hm : n0 ∈ newOf visited (g.neighborsOf node) := by
        rw [hnew]
        exact List.mem_cons_self _ _
      apply countP_lt _ _ _ ?_ n0
      · exact neighborsOf_subset_univ g node n0 (newOf_subset _ _ _ hm)
      · simp only [decide_eq_true_eq]
        exact newOf_fresh _ _ _ hm
      · simp only [decide_eq_false_iff_not, not_not]
        simp
      · intro x _
        simp only [decide_eq_true_eq]
        intro hnot hmem
        exact hnot (List.mem_append.mpr (Or.inr hmem))

/-- `Graph.bfs`: empty result when the start node is absent, else run the
worklist loop with the start visited at depth 0. -/
def Graph.bfs (g : Graph) (start : String) (md : Nat) : List (String × Nat) :=
  if g.containsNode start then bfsLoop g md [start] [(start, 0)] else []

/-- Walks in the adjacency structure: `HasPath g s t d` iff `t` is reachable
from `s` in exactly `d` neighbor steps. -/
inductive HasPath (g : Graph) (s : String) : String → Nat → Prop
  | refl : HasPath g s s 0
  | tail {t u : String} {d : Nat} : HasPath g s t d → u ∈ g.neighborsOf t →
      HasPath g s u (d + 1)

/-- `d` is the minimum walk length from `s` to `t`. -/
def IsDist (g : Graph) (s t : String) (d : Nat) : Prop :=
  HasPath g s t d ∧ ∀ e, HasPath g s t e → d ≤ e

theorem hasPath_zero (g : Graph) (s t : String) (h : HasPath g s t 0) : t = s := by
  cases h
  rfl

theorem isDist_start (g : Graph) (s : String) : IsDist g s s 0 :=
  ⟨HasPath.refl, fun e _ => Nat.zero_le e⟩

theorem isDist_unique (g : Graph) (s t : String) (d e : Nat)
    (hd : IsDist g s t d) (he : IsDist g s t e) : d = e :=
  Nat.le_antisymm (hd.2 e he.1) (he.2 d hd.1)

theorem exists_isDist (g : Graph) (s t : String) (e : Nat)
    (h : HasPath g s t e) : ∃ d, IsDist g s t d ∧ d ≤ e := by
  classical
  have hex : ∃ d, HasPath g s t d := ⟨e, h⟩
  exact ⟨Nat.find hex, ⟨Nat.find_spec hex, fun e2 he2 => Nat.find_min' hex he2⟩,
    Nat.find_min' hex h⟩

/-- A node at minimum distance `d + 1` has a neighbor-predecessor at minimum
distance `d`. -/
theorem isDist_parent (g : Graph) (s m : String) (d : Nat)
    (h : IsDist g s m (d + 1)) :
    ∃ t, IsDist g s t d ∧ m ∈ g.neighborsOf t := by
  obtain ⟨hp, hmin⟩ := h
  cases hp with
  | tail hpt hnb =>
      rename_i t
      obtain ⟨d0, hd0, hle⟩ := exists_isDist g s t _ hpt
      have : d + 1 ≤ d0 + 1 := hmin _ (HasPath.tail hd0.1 hnb)
      have hd0d : d0 = d := by omega
      subst hd0d
      exact ⟨t, hd0, hnb⟩


theorem mem_map_fst {α : Type} (l : List (String × α)) (a : String) :
    a ∈ l.map Prod.fst ↔ ∃ d, (a, d) ∈ l := by
  rw [List.mem_map]
  constructor
  · rintro ⟨⟨x, y⟩, hmem, rfl⟩
    exact ⟨y, hmem⟩
  · rintro ⟨d, hd⟩
    exact ⟨(a, d), hd, rfl⟩

theorem sorted_map_const {α : Type} (l : List α) (c : Nat) :
    (l.map (fun _ => c)).Sorted (· ≤ ·) := by
  induction l with
  | nil => exact List.sorted_nil
  | cons x l ih =>
      rw [List.map_cons, List.sorted_cons]
      refine ⟨?_, ih⟩
      intro b hb
      rw [List.mem_map] at hb
      obtain ⟨_, _, rfl⟩ := hb
      exact le_refl c

/-- Invariant of the BFS worklist loop. `done` is the list of entries already
processed (output so far), `visited` the visited set, `pending` the
unprocessed queue suffix. -/
structure BfsInv (g : Graph) (s : String) (md : Nat) (done : List (String × Nat))
    (visited : List String) (pending : List (String × Nat)) : Prop where
  vis_eq : ∀ m, m ∈ visited ↔ (∃ d, (m, d) ∈ done) ∨ ∃ d, (m, d) ∈ pending
  nodup : (done.map Prod.fst ++ pending.map Prod.fst).Nodup
  dist_done : ∀ n d, (n, d) ∈ done → IsDist g s n d ∧ d ≤ md
  dist_pending : ∀ n d, (n, d) ∈ pending → IsDist g s n d ∧ d ≤ md
  sorted : (done.map Prod.snd ++ pending.map Prod.snd).Sorted (· ≤ ·)
  twolevel : ∀ n d m e, (n, d) ∈ pending → (m, e) ∈ pending → e ≤ d + 1
  expanded : ∀ n d, (n, d) ∈ done → d < md → ∀ m, m ∈ g.neighborsOf n →
      m ∈ visited
  closed : ∀ n d, pending.head? = some (n, d) → ∀ m e, IsDist g s m e → e ≤ d →
      m ∈ visited
  start_mem : s ∈ visited

/-- Processing a queue entry at the depth cutoff (no expansion) preserves the
loop invariant. -/
theorem bfsInv_step_cutoff (g : Graph) (s : String) (md : Nat)
    (done : List (String × Nat)) (visited : List String) (node : String)
    (depth : Nat) (rest : List (String × Nat)) (hmd : md ≤ depth)
    (hinv : BfsInv g s md done visited ((node, depth) :: rest)) :
    BfsInv g s md (done ++ [(node, depth)]) visited rest := by
  obtain ⟨vis_eq, nodup, dist_done, dist_pending, sorted, twolevel, expanded,
    closed, start_mem⟩ := hinv
  have hdm : depth = md :=
    Nat.le_antisymm (dist_pending node depth (List.mem_cons_self _ _)).2 hmd
  refine ⟨?_, ?_, ?_, ?_, ?_, ?_, ?_, ?_, start_mem⟩
  · intro m
    rw [vis_eq m]
    constructor
    · rintro (⟨d, hd⟩ | ⟨d, hd⟩)
      · exact Or.inl ⟨d, List.mem_append.mpr (Or.inl hd)⟩
      · rcases List.mem_cons.mp hd with heq | h2
        · refine Or.inl ⟨d, List.mem_append.mpr (Or.inr ?_)⟩
          rw [heq]
          exact List.mem_singleton_self _
        · exact Or.inr ⟨d, h2⟩
    · rintro (⟨d, hd⟩ | ⟨d, hd⟩)
      · rcases List.mem_append.mp hd with h2 | h2
        · exact Or.inl ⟨d, h2⟩
        · rw [List.mem_singleton, Prod.mk.injEq] at h2
          rw [h2.1]
          exact Or.inr ⟨depth, List.mem_cons_self _ _⟩
      · exact Or.inr ⟨d, List.mem_cons_of_mem _ hd⟩
  · have hre : (done ++ [(node, depth)]).map Prod.fst ++ rest.map Prod.fst
        = done.map Prod.fst ++ ((node, depth) :: rest).map Prod.fst := by
      simp
    rw [hre]
    exact nodup
  · intro n d hd
    rcases List.mem_append.mp hd with h2 | h2
    · exact dist_done n d h2
    · rw [List.mem_singleton, Prod.mk.injEq] at h2
      obtain ⟨rfl, rfl⟩ := h2
      exact dist_pending _ _ (List.mem_cons_self _ _)
  · intro n d hd
    exact dist_pending n d (List.mem_cons_of_mem _ hd)
  · have hre : (done ++ [(node, depth)]).map Prod.snd ++ rest.map Prod.snd
        = done.map Prod.snd ++ ((node, depth) :: rest).map Prod.snd := by
      simp
    rw [hre]
    exact sorted
  · intro n d m e hn hm
    exact twolevel n d m e (List.mem_cons_of_mem _ hn) (List.mem_cons_of_mem _ hm)
  · intro n d hd hlt m hm
    rcases List.mem_append.mp hd with h2 | h2
    · exact expanded n d h2 hlt m hm
    · rw [List.mem_singleton, Prod.mk.injEq] at h2
      obtain ⟨rfl, rfl⟩ := h2
      omega
  · intro n d hhead m e hdist hle
    have hmem : (n, d) ∈ rest := by
      cases rest with
      | nil => simp at hhead
      | cons p rest2 =>
          rw [List.head?_cons, Option.some.injEq] at hhead
          rw [← hhead]
          exact List.mem_cons_self _ _
    have hd_le : d ≤ md := (dist_pending n d (List.mem_cons_of_mem _ hmem)).2
    have hd_ge : depth ≤ d := by
      have hs2 := (List.pairwise_append.mp sorted).2.1
      rw [List.map_cons] at hs2
      exact (List.sorted_cons.mp hs2).1 d (List.mem_map_of_mem Prod.snd hmem)
    exact closed node depth rfl m e hdist (by omega)


theorem map_fst_tag (l : List String) (c : Nat) :
    (l.map (fun m => (m, c))).map Prod.fst = l := by
  induction l with
  | nil => rfl
  | cons x l ih => simp [ih]

theorem map_snd_tag (l : List String) (c : Nat) :
    (l.map (fun m => (m, c))).map Prod.snd = l.map (fun _ => c) := by
  induction l with
  | nil => rfl
  | cons x l ih => simp [ih]

/-- Processing a queue entry below the depth cutoff (expanding its neighbors)
preserves the loop invariant. -/
theorem bfsInv_step_expand (g : Graph) (s : String) (md : Nat)
    (done : List (String × Nat)) (visited : List String) (node : String)
    (depth : Nat) (rest : List (String × Nat)) (hmd : depth < md)
    (hinv : BfsInv g s md done visited ((node, depth) :: rest)) :
    BfsInv g s md (done ++ [(node, depth)])
      ((newOf visited (g.neighborsOf node)).reverse ++ visited)
      (rest ++ (newOf visited (g.neighborsOf node)).map (fun m => (m, depth + 1))) := by
  obtain ⟨vis_eq, nodup, dist_done, dist_pending, sorted, twolevel, expanded,
    closed, start_mem⟩ := hinv
  set new := newOf visited (g.neighborsOf node) with hnewdef
  have hdist_node : IsDist g s node depth :=
    (dist_pending node depth (List.mem_cons_self _ _)).1
  have hfresh : ∀ m ∈ new, m ∉ visited := fun m hm => newOf_fresh _ _ _ hm
  have hnbr : ∀ m ∈ new, m ∈ g.neighborsOf node := fun m hm => newOf_subset _ _ _ hm
  have hdist_new : ∀ m ∈ new, IsDist g s m (depth + 1) := by
    intro m hm
    have hpath : HasPath g s m (depth + 1) := HasPath.tail hdist_node.1 (hnbr m hm)
    refine ⟨hpath, ?_⟩
    intro e he
    by_contra hlt2
    push_neg at hlt2
    obtain ⟨e0, he0, hle0⟩ := exists_isDist g s m e he
    have hv : m ∈ visited := closed node depth rfl m e0 he0 (by omega)
    exact hfresh m hm hv
  have hrest_ge : ∀ p ∈ rest, depth ≤ p.2 := by
    have hs2 := (List.pairwise_append.mp sorted).2.1
    rw [List.map_cons] at hs2
    intro p hp
    exact (List.sorted_cons.mp hs2).1 p.2 (List.mem_map_of_mem Prod.snd hp)
  have hrest_le : ∀ p ∈ rest, p.2 ≤ depth + 1 := by
    intro p hp
    exact twolevel node depth p.1 p.2 (List.mem_cons_self _ _)
      (List.mem_cons_of_mem _ hp)
  have hvis_mem : ∀ m, m ∈ new.reverse ++ visited ↔ m ∈ new ∨ m ∈ visited := by
    intro m
    rw [List.mem_append, List.mem_reverse]
  have hnbr_vis : ∀ m, m ∈ g.neighborsOf node → m ∈ new.reverse ++ visited := by
    intro m hm
    by_cases hv : m ∈ visited
    · exact List.mem_append.mpr (Or.inr hv)
    · exact List.mem_append.mpr (Or.inl (List.mem_reverse.mpr
        (newOf_complete _ _ _ hm hv)))
  have hlevel : (∀ q ∈ rest, depth + 1 ≤ q.2) →
      ∀ m2, IsDist g s m2 (depth + 1) → m2 ∈ new.reverse ++ visited := by
    intro hdeep m2 hm2
    obtain ⟨t, htd, htnb⟩ := isDist_parent g s m2 depth hm2
    have htvis : t ∈ visited := closed node depth rfl t depth htd (le_refl _)
    rcases (vis_eq t).mp htvis with ⟨dt, hdt⟩ | ⟨dt, hdt⟩
    · have hdteq : dt = depth :=
        isDist_unique g s t dt depth (dist_done t dt hdt).1 htd
      subst hdteq
      exact List.mem_append.mpr (Or.inr (expanded t dt hdt hmd m2 htnb))
    · rcases List.mem_cons.mp hdt with heq | h3
      · rw [Prod.mk.injEq] at heq
        rw [heq.1] at htnb
        exact hnbr_vis m2 htnb
      · have hdteq : dt = depth :=
          isDist_unique g s t dt depth
            (dist_pending t dt (List.mem_cons_of_mem _ h3)).1 htd
        have hq := hdeep (t, dt) h3
        omega
  refine ⟨?_, ?_, ?_, ?_, ?_, ?_, ?_, ?_, ?_⟩
  · intro m
    constructor
    · intro hm
      rcases (hvis_mem m).mp hm with h2 | h2
      · exact Or.inr ⟨depth + 1,
          List.mem_append.mpr (Or.inr (List.mem_map.mpr ⟨m, h2, rfl⟩))⟩
      · rcases (vis_eq m).mp h2 with ⟨d, hd⟩ | ⟨d, hd⟩
        · exact Or.inl ⟨d, List.mem_append.mpr (Or.inl hd)⟩
        · rcases List.mem_cons.mp hd with heq | h3
          · refine Or.inl ⟨d, List.mem_append.mpr (Or.inr ?_)⟩
            rw [heq]
            exact List.mem_singleton_self _
          · exact Or.inr ⟨d, List.mem_append.mpr (Or.inl h3)⟩
    · intro hm
      rcases hm with ⟨d, hd⟩ | ⟨d, hd⟩
      · rcases List.mem_append.mp hd with h2 | h2
        · exact List.mem_append.mpr (Or.inr ((vis_eq m).mpr (Or.inl ⟨d, h2⟩)))
        · rw [List.mem_singleton, Prod.mk.injEq] at h2
          rw [h2.1]
          exact List.mem_append.mpr (Or.inr ((vis_eq node).mpr
            (Or.inr ⟨depth, List.mem_cons_self _ _⟩)))
      · rcases List.mem_append.mp hd with h2 | h2
        · exact List.mem_append.mpr (Or.inr ((vis_eq m).mpr
            (Or.inr ⟨d, List.mem_cons_of_mem _ h2⟩)))
        · rw [List.mem_map] at h2
          obtain ⟨x, hx, hxe⟩ := h2
          have hxm : x = m := congrArg Prod.fst hxe
          subst hxm
          exact List.mem_append.mpr (Or.inl (List.mem_reverse.mpr hx))
  · have hre : (done ++ [(node, depth)]).map Prod.fst
        ++ (rest ++ new.map (fun m => (m, depth + 1))).map Prod.fst
        = (done.map Prod.fst ++ ((node, depth) :: rest).map Prod.fst)
          ++ new := by
      rw [List.map_append, List.map_append, map_fst_tag]
      simp
    rw [hre, List.nodup_append]
    refine ⟨nodup, newOf_nodup _ _, ?_⟩
    intro a ha hanew
    have havis : a ∈ visited := by
      apply (vis_eq a).mpr
      rcases List.mem_append.mp ha with h2 | h2
      · exact Or.inl ((mem_map_fst done a).mp h2)
      · exact Or.inr ((mem_map_fst _ a).mp h2)
    exact hfresh a hanew havis
  · intro n d hd
    rcases List.mem_append.mp hd with h2 | h2
    · exact dist_done n d h2
    · rw [List.mem_singleton, Prod.mk.injEq] at h2
      obtain ⟨rfl, rfl⟩ := h2
      exact dist_pending _ _ (List.mem_cons_self _ _)
  · intro n d hd
    rcases List.mem_append.mp hd with h2 | h2
    · exact dist_pending n d (List.mem_cons_of_mem _ h2)
    · rw [List.mem_map] at h2
      obtain ⟨x, hx, hxe⟩ := h2
      rw [Prod.mk.injEq] at hxe
      obtain ⟨rfl, rfl⟩ := hxe
      exact ⟨hdist_new x hx, by omega⟩
  · have hre : (done ++ [(node, depth)]).map Prod.snd
        ++ (rest ++ new.map (fun m => (m, depth + 1))).map Prod.snd
        = (done.map Prod.snd ++ [depth])
          ++ (rest.map Prod.snd ++ new.map (fun _ => depth + 1)) := by
      rw [List.map_append, List.map_append, map_snd_tag]
      simp
    rw [hre]
    have hsplit := List.pairwise_append.mp sorted
    rw [List.map_cons] at hsplit
    have hdone_sorted : (done.map Prod.snd).Sorted (· ≤ ·) := hsplit.1
    have hpend_sorted := hsplit.2.1
    have hcross := hsplit.2.2
    have hdone_le : ∀ x ∈ done.map Prod.snd, x ≤ depth := fun x hx =>
      hcross x hx depth (List.mem_cons_self _ _)
    have hrest_sorted : (rest.map Prod.snd).Sorted (· ≤ ·) :=
      (List.sorted_cons.mp hpend_sorted).2
    refine List.pairwise_append.mpr ⟨?_, ?_, ?_⟩
    · refine List.pairwise_append.mpr ⟨hdone_sorted, List.sorted_singleton _, ?_⟩
      intro a ha b hb
      rw [List.mem_singleton] at hb
      subst hb
      exact hdone_le a ha
    · refine List.pairwise_append.mpr ⟨hrest_sorted, sorted_map_const _ _, ?_⟩
      intro a ha b hb
      rw [List.mem_map] at ha hb
      obtain ⟨pa, hpa, rfl⟩ := ha
      obtain ⟨_, _, rfl⟩ := hb
      exact hrest_le pa hpa
    · intro a ha b hb
      have hage : a ≤ depth := by
        rcases List.mem_append.mp ha with h2 | h2
        · exact hdone_le a h2
        · rw [List.mem_singleton] at h2
          omega
      have hble : depth ≤ b := by
        rcases List.mem_append.mp hb with h2 | h2
        · rw [List.mem_map] at h2
          obtain ⟨pb, hpb, rfl⟩ := h2
          exact hrest_ge pb hpb
        · rw [List.mem_map] at h2
          obtain ⟨_, _, rfl⟩ := h2
          omega
      omega
  · intro n d m e hn hm
    rcases List.mem_append.mp hn with h2 | h2
    · rcases List.mem_append.mp hm with h3 | h3
      · exact twolevel n d m e (List.mem_cons_of_mem _ h2)
          (List.mem_cons_of_mem _ h3)
      · rw [List.mem_map] at h3
        obtain ⟨x, hx, hxe⟩ := h3
        rw [Prod.mk.injEq] at hxe
        have hd2 : depth ≤ d := hrest_ge (n, d) h2
        omega
    · rw [List.mem_map] at h2
      obtain ⟨x, hx, hxe⟩ := h2
      rw [Prod.mk.injEq] at hxe
      rcases List.mem_append.mp hm with h3 | h3
      · have he2 : e ≤ depth + 1 := hrest_le (m, e) h3
        omega
      · rw [List.mem_map] at h3
        obtain ⟨y, hy, hye⟩ := h3
        rw [Prod.mk.injEq] at hye
        omega
  · intro n d hd hlt m hm
    rcases List.mem_append.mp hd with h2 | h2
    · exact List.mem_append.mpr (Or.inr (expanded n d h2 hlt m hm))
    · rw [List.mem_singleton, Prod.mk.injEq] at h2
      obtain ⟨rfl, rfl⟩ := h2
      exact hnbr_vis m hm
  · intro n d hhead m e hdist hle
    cases hr : rest with
    | nil =>
        rw [hr] at hhead
        rw [List.nil_append] at hhead
        cases hnl : new with
        | nil =>
            rw [hnl] at hhead
            simp at hhead
        | cons n0 ns0 =>
            rw [hnl] at hhead
            rw [List.map_cons, List.head?_cons, Option.some.injEq,
              Prod.mk.injEq] at hhead
            have hdeq : d = depth + 1 := hhead.2.symm
            rcases Nat.lt_or_ge e (depth + 1) with hcase | hcase
            · exact List.mem_append.mpr (Or.inr
                (closed node depth rfl m e hdist (by omega)))
            · have he1 : e = depth + 1 := by omega
              rw [he1] at hdist
              rw [← hnl]
              exact hlevel (by rw [hr]; intro q hq; simp at hq) m hdist
    | cons p rest2 =>
        rw [hr] at hhead
        rw [List.cons_append, List.head?_cons, Option.some.injEq] at hhead
        have hp2 : p.2 = d := by rw [hhead]
        have hge : depth ≤ d := by
          have := hrest_ge p (by rw [hr]; exact List.mem_cons_self _ _)
          omega
        have hle2 : d ≤ depth + 1 := by
          have := hrest_le p (by rw [hr]; exact List.mem_cons_self _ _)
          omega
        rcases Nat.lt_or_ge e (depth + 1) with hcase | hcase
        · exact List.mem_append.mpr (Or.inr
            (closed node depth rfl m e hdist (by omega)))
        · have hd1 : d = depth + 1 := by omega
          have he1 : e = depth + 1 := by omega
          rw [he1] at hdist
          refine hlevel ?_ m hdist
          intro q hq
          rw [hr] at hq
          rcases List.mem_cons.mp hq with rfl | h3
          · omega
          · have hsort2 : (rest.map Prod.snd).Sorted (· ≤ ·) := by
              have hsplit := List.pairwise_append.mp sorted
              rw [List.map_cons] at hsplit
              exact (List.sorted_cons.mp hsplit.2.1).2
            rw [hr, List.map_cons] at hsort2
            have := (List.sorted_cons.mp hsort2).1 q.2
              (List.mem_map_of_mem Prod.snd h3)
            omega
  · exact List.mem_append.mpr (Or.inr start_mem)


/-- The loop outputs its pending queue as a prefix (every queued entry is
processed, in order). -/
theorem bfsLoop_prefix (g : Graph) (md : Nat) (visited : List String)
    (pending : List (String × Nat)) :
    ∃ more, bfsLoop g md visited pending = pending ++ more := by
  induction visited, pending using bfsLoop.induct g md with
  | case1 visited => exact ⟨[], by simp [bfsLoop]⟩
  | case2 visited node depth rest hle ih =>
      obtain ⟨more, hmore⟩ := ih
      rw [bfsLoop, if_pos hle, hmore]
      exact ⟨more, by simp⟩
  | case3 visited node depth rest hlt ih =>
      obtain ⟨more, hmore⟩ := ih
      rw [bfsLoop, if_neg hlt, hmore, bfsExpand_eq]
      exact ⟨(newOf visited (g.neighborsOf node)).map (fun n => (n, depth + 1))
        ++ more, by simp⟩

/-- Running the loop from any state satisfying the invariant ends in a state
satisfying the invariant with an empty queue, the output appended to `done`. -/
theorem bfsLoop_invariant (g : Graph) (s : String) (md : Nat) :
    ∀ (visited : List String) (pending : List (String × Nat))
      (done : List (String × Nat)), BfsInv g s md done visited pending →
    ∃ visitedF, BfsInv g s md (done ++ bfsLoop g md visited pending) visitedF [] := by
  intro visited pending
  induction visited, pending using bfsLoop.induct g md with
  | case1 visited =>
      intro done hinv
      rw [show bfsLoop g md visited [] = [] from by simp [bfsLoop],
        List.append_nil]
      exact ⟨visited, hinv⟩
  | case2 visited node depth rest hle ih =>
      intro done hinv
      have hstep := bfsInv_step_cutoff g s md done visited node depth rest hle hinv
      obtain ⟨vF, hF⟩ := ih (done ++ [(node, depth)]) hstep
      refine ⟨vF, ?_⟩
      rw [bfsLoop, if_pos hle,
        show done ++ ((node, depth) :: bfsLoop g md visited rest)
          = (done ++ [(node, depth)]) ++ bfsLoop g md visited rest from by simp]
      exact hF
  | case3 visited node depth rest hlt ih =>
      intro done hinv
      have hstep := bfsInv_step_expand g s md done visited node depth rest
        (by omega) hinv
      obtain ⟨vF, hF⟩ := ih (done ++ [(node, depth)])
        (by rw [bfsExpand_eq]; exact hstep)
      refine ⟨vF, ?_⟩
      rw [bfsLoop, if_neg hlt,
        show done ++ ((node, depth) :: bfsLoop g md
            (bfsExpand visited rest depth (g.neighborsOf node)).1
            (bfsExpand visited rest depth (g.neighborsOf node)).2)
          = (done ++ [(node, depth)]) ++ bfsLoop g md
            (bfsExpand visited rest depth (g.neighborsOf node)).1
            (bfsExpand visited rest depth (g.neighborsOf node)).2 from by simp]
      exact hF

/-- From a final invariant state: every node at minimum distance `e ≤ md`
was output, at depth `e`. -/
theorem bfs_complete_of_inv (g : Graph) (s : String) (md : Nat)
    (done : List (String × Nat)) (visitedF : List String)
    (hinv : BfsInv g s md done visitedF []) :
    ∀ e, e ≤ md → ∀ m, IsDist g s m e → (m, e) ∈ done := by
  intro e
  induction e with
  | zero =>
      intro _ m hm
      have hms : m = s := hasPath_zero g s m hm.1
      rw [hms]
      rcases (hinv.vis_eq s).mp hinv.start_mem with ⟨d0, hd0⟩ | ⟨d0, hd0⟩
      · have hd0eq : d0 = 0 :=
          isDist_unique g s s d0 0 (hinv.dist_done s d0 hd0).1 (isDist_start g s)
        rw [← hd0eq]
        exact hd0
      · simp at hd0
  | succ e ih =>
      intro he m hm
      obtain ⟨t, htd, htnb⟩ := isDist_parent g s m e hm
      have ht_done : (t, e) ∈ done := ih (by omega) t htd
      have hmvis : m ∈ visitedF := hinv.expanded t e ht_done (by omega) m htnb
      rcases (hinv.vis_eq m).mp hmvis with ⟨d0, hd0⟩ | ⟨d0, hd0⟩
      · have hd0eq : d0 = e + 1 :=
          isDist_unique g s m d0 (e + 1) (hinv.dist_done m d0 hd0).1 hm
        rw [← hd0eq]
        exact hd0
      · simp at hd0

/-- The invariant at loop entry: only the start node visited and queued, at
depth 0. -/
theorem bfsInv_init (g : Graph) (s : String) (md : Nat) :
    BfsInv g s md [] [s] [(s, 0)] := by
  refine ⟨?_, ?_, ?_, ?_, ?_, ?_, ?_, ?_, ?_⟩
  · intro m
    simp
  · simp
  · intro n d hd
    simp at hd
  · intro n d hd
    simp at hd
    rw [hd.1, hd.2]
    exact ⟨isDist_start g s, Nat.zero_le md⟩
  · simp
  · intro n d m e hn hm
    simp at hn hm
    omega
  · intro n d hd
    simp at hd
  · intro n d hhead m e hdist hle
    simp at hhead
    have he0 : e = 0 := by omega
    rw [he0] at hdist
    have hms : m = s := hasPath_zero g s m hdist.1
    simp [hms]
  · simp

/-- Neighbor-closure of the adjacency dict: every neighbor entry is itself a
key. `Graph` instances built through `add_node` / `add_edge` always satisfy
this; on a graph violating it the Python `bfs` would raise `KeyError`
(`self._adj[node]`) where this model reads an empty neighbor set, so the
specification theorem is stated for closed graphs. -/
def Graph.Closed (g : Graph) : Prop :=
  ∀ p ∈ g.adj, ∀ x ∈ p.2, (g.adjOf x).isSome = true

instance (g : Graph) : Decidable g.Closed := by
  unfold Graph.Closed
  infer_instance

/-- C6: `bfs(start, max_depth)` returns the empty list when `start` is absent;
otherwise it reports the start node first at depth 0, reports no node twice,
reports depths in non-decreasing order, and reports exactly the nodes whose
minimum distance from `start` is at most `max_depth`, each paired with that
minimum distance. -/
theorem bfs_spec (g : Graph) (start : String) (md : Nat) (_hclosed : g.Closed) :
    (g.containsNode start = false → g.bfs start md = []) ∧
    (g.containsNode start = true →
      (∃ more, g.bfs start md = (start, 0) :: more) ∧
      ((g.bfs start md).map Prod.fst).Nodup ∧
      ((g.bfs start md).map Prod.snd).Sorted (· ≤ ·) ∧
      (∀ n d, (n, d) ∈ g.bfs start md → IsDist g start n d ∧ d ≤ md) ∧
      (∀ n d, IsDist g start n d → d ≤ md → (n, d) ∈ g.bfs start md)) := by
  constructor
  · intro hfalse
    unfold Graph.bfs
    rw [hfalse]
    rfl
  · intro htrue
    have hbfs : g.bfs start md = bfsLoop g md [start] [(start, 0)] := by
      unfold Graph.bfs
      rw [htrue]
      rfl
    obtain ⟨vF, hF⟩ := bfsLoop_invariant g start md [start] [(start, 0)] []
      (bfsInv_init g start md)
    rw [List.nil_append] at hF
    refine ⟨?_, ?_, ?_, ?_, ?_⟩
    · obtain ⟨more, hmore⟩ := bfsLoop_prefix g md [start] [(start, 0)]
      rw [hbfs, hmore]
      exact ⟨more, rfl⟩
    · have h2 := hF.nodup
      rw [List.map_nil, List.append_nil] at h2
      rw [hbfs]
      exact h2
    · have h2 := hF.sorted
      rw [List.map_nil, List.append_nil] at h2
      rw [hbfs]
      exact h2
    · intro n d hd
      rw [hbfs] at hd
      exact hF.dist_done n d hd
    · intro n d hdist hle
      rw [hbfs]
      exact bfs_complete_of_inv g start md _ vF hF d hle n hdist

/-- Witness for C6: the specification applied to a concrete closed two-node
graph. -/
theorem bfs_spec_witness :
    ((Graph.containsNode ⟨[("a", ["b"]), ("b", ["a"])]⟩ "a" = false →
      Graph.bfs ⟨[("a", ["b"]), ("b", ["a"])]⟩ "a" 3 = []) ∧
    (Graph.containsNode ⟨[("a", ["b"]), ("b", ["a"])]⟩ "a" = true →
      (∃ more, Graph.bfs ⟨[("a", ["b"]), ("b", ["a"])]⟩ "a" 3 = ("a", 0) :: more) ∧
      ((Graph.bfs ⟨[("a", ["b"]), ("b", ["a"])]⟩ "a" 3).map Prod.fst).Nodup ∧
      ((Graph.bfs ⟨[("a", ["b"]), ("b", ["a"])]⟩ "a" 3).map Prod.snd).Sorted
        (· ≤ ·) ∧
      (∀ n d, (n, d) ∈ Graph.bfs ⟨[("a", ["b"]), ("b", ["a"])]⟩ "a" 3 →
        IsDist ⟨[("a", ["b"]), ("b", ["a"])]⟩ "a" n d ∧ d ≤ 3) ∧
      (∀ n d, IsDist ⟨[("a", ["b"]), ("b", ["a"])]⟩ "a" n d → d ≤ 3 →
        (n, d) ∈ Graph.bfs ⟨[("a", ["b"]), ("b", ["a"])]⟩ "a" 3))) :=
  bfs_spec ⟨[("a", ["b"]), ("b", ["a"])]⟩ "a" 3 (by decide)



/-! ### Claim C8: recommend_for_user and k ≤ 0

Python float scores are modelled as exact rationals (1/(1+d), 0.5, 0.7,
borrow_count/10); the claim settled here depends only on which candidates
exist and on how a Python slice `ranked[:k]` behaves, not on float
rounding. -/

/-- Python slice `l[:k]`: for `k ≥ 0` the first `k` elements; for `k < 0` all
but the last `|k|` elements (empty when `|k| ≥ len(l)`). -/
def pySlice {α : Type} (l : List α) (k : Int) : List α :=
  if 0 ≤ k then l.take k.toNat
  else l.take (l.length - (-k).toNat)

/-- `d[k] = v` on a Python dict: update in place if the key exists, else
append (insertion order preserved). -/
def dictUpsert {α : Type} (m : List (String × α)) (k : String) (v : α) :
    List (String × α) :=
  match dictGet m k with
  | some _ => dictSet m k v
  | none => m ++ [(k, v)]

/-- The candidate score of a book found at BFS depth `d`: `1/(1+depth)`,
plus the interest bonus, plus the capped popularity bonus. -/
def scoreOf (user : User) (book : Book) (d : Nat) : ℚ :=
  1 / (1 + (d : ℚ))
  + (if strLower book.genre ∈ user.interests then 1/2 else 0)
  + min ((book.borrow_count : ℚ) / 10) 1

/-- The scoring loop over the BFS traversal: for each reachable `book:` node
other than `book:{user_id}`, not currently borrowed and present in the
catalog, keep the maximum score per book id. `node.split(":", 1)[1]` equals
dropping 5 characters for a node passing the `startswith("book:")` guard
(the guard places the first colon at index 4). The source also builds a
`distance` dict from the traversal but never reads it; it is not modelled. -/
def scoreCandidates (L : Library) (user : User) (user_id : String) :
    List (String × Nat) → List (String × ℚ) → List (String × ℚ)
  | [], acc => acc
  | (node, depth) :: rest, acc =>
      if strStartsWith node "book:" = true ∧ node ≠ "book:" ++ user_id then
        if (strDrop node 5) ∈ user.borrowed_books then
          scoreCandidates L user user_id rest acc
        else
          match dictGet L.books (strDrop node 5) with
          | none => scoreCandidates L user user_id rest acc
          | some book =>
              scoreCandidates L user user_id rest
                (dictUpsert acc (strDrop node 5)
                  (max ((dictGet acc (strDrop node 5)).getD 0)
                    (scoreOf user book depth)))
      else scoreCandidates L user user_id rest acc

/-- The fallback scoring pass over the whole catalog (books in insertion
order, keyed by their `item_id`, as in the source). -/
def fallbackCandidates (L : Library) (user : User) : List (String × ℚ) :=
  L.books.foldl (fun acc p =>
    if p.2.item_id ∈ user.borrowed_books then acc
    else
      if ((if strLower p.2.genre ∈ user.interests then (7 : ℚ)/10 else 0)
          + min ((p.2.borrow_count : ℚ) / 10) 1) > 0 then
        dictUpsert acc p.2.item_id
          ((if strLower p.2.genre ∈ user.interests then (7 : ℚ)/10 else 0)
            + min ((p.2.borrow_count : ℚ) / 10) 1)
      else acc) []

/-- `self.library.books[bid]` for every candidate id, in dict order; `none`
models the `KeyError` raise on a missing id. -/
def lookupRanked (L : Library) : List (String × ℚ) → Option (List (Book × ℚ))
  | [] => some []
  | (bid, sc) :: rest =>
      match dictGet L.books bid with
      | none => none
      | some bk => (lookupRanked L rest).map (fun l => (bk, sc) :: l)

/-- The sort-key comparison of the source, `(-score, -borrow_count,
title.lower())` ascending lexicographically (strings compared by code
points), as a total preorder. -/
def rankLE (a b : Book × ℚ) : Bool :=
  if a.2 > b.2 then true
  else if a.2 < b.2 then false
  else if a.1.borrow_count > b.1.borrow_count then true
  else if a.1.borrow_count < b.1.borrow_count then false
  else !(decide ((strLower b.1.title).data < (strLower a.1.title).data))

def rankInsert (x : Book × ℚ) : List (Book × ℚ) → List (Book × ℚ)
  | [] => [x]
  | y :: ys => if rankLE x y then x :: y :: ys else y :: rankInsert x ys

/-- Stable insertion sort by the rank key: processing right to left and
placing each element before the first entry it compares `≤` to reproduces
Python's stable `sorted`. -/
def rankSort (l : List (Book × ℚ)) : List (Book × ℚ) := l.foldr rankInsert []

/-- `RecommendationEngine.recommend_for_user` (src/recommendation.py); the
engine's `library` field becomes the explicit `L` argument, and the source's
local bindings (`traversal`, `candidate_scores`) are inlined. `none` models
the `KeyError` raise of `self.library.books[bid]`. -/
def recommend_for_user (L : Library) (user_id : String) (k : Int) :
    Option (List (Book × ℚ)) :=
  match dictGet L.users user_id with
  | none => some []
  | some user =>
      (lookupRanked L
        (if (scoreCandidates L user user_id
              (L.user_book_graph.bfs ("user:" ++ user_id) 3) []).isEmpty then
          fallbackCandidates L user
        else
          scoreCandidates L user user_id
            (L.user_book_graph.bfs ("user:" ++ user_id) 3) [])).map
        (fun pairs => pySlice (rankSort pairs) k)

/-- Equation for `recommend_for_user` on a known user id. -/
theorem recommend_eq_found (L : Library) (uid : String) (usr : User) (k : Int)
    (h : dictGet L.users uid = some usr) :
    recommend_for_user L uid k =
      (lookupRanked L
        (if (scoreCandidates L usr uid
              (L.user_book_graph.bfs ("user:" ++ uid) 3) []).isEmpty then
          fallbackCandidates L usr
        else
          scoreCandidates L usr uid
            (L.user_book_graph.bfs ("user:" ++ uid) 3) [])).map
        (fun pairs => pySlice (rankSort pairs) k) := by
  unfold recommend_for_user
  rw [h]

/-- Failing input for C8: two candidate books (distinct scores) and a known
user with no borrows and no graph edges. -/
def recLib : Library :=
  { books := [("b1", ⟨"b1", "A", "Auth", "tech", 1, 1, 1⟩),
              ("b2", ⟨"b2", "B", "Auth", "tech", 1, 1, 0⟩)],
    users := [("u1", ⟨"u1", "Alice", ["tech"], [], []⟩)],
    borrow_requests := [],
    user_book_graph := ⟨[("book:b1", []), ("book:b2", []), ("user:u1", [])]⟩ }

/-- C8 fails on the code as written: with the negative `k = -1`,
`ranked[:k]` drops only the last ranked entry, so `recommend_for_user`
returns a nonempty list even though `k ≤ 0` (while `k = 0` does yield the
empty list, matching the claim there). -/
theorem recommend_negative_k_not_empty :
    ((-1 : Int) ≤ 0) ∧
    recommend_for_user recLib "u1" (-1)
      = some [(⟨"b1", "A", "Auth", "tech", 1, 1, 1⟩, 4/5)] ∧
    recommend_for_user recLib "u1" (-1) ≠ some [] ∧
    recommend_for_user recLib "u1" 0 = some [] := by
  have hbfs : Graph.bfs ⟨[("book:b1", []), ("book:b2", []), ("user:u1", [])]⟩
      ("user:" ++ "u1") 3 = [("user:u1", 0)] := by
    simp [Graph.bfs, bfsLoop, bfsExpand, Graph.containsNode, Graph.adjOf,
      Graph.neighborsOf, dictGet]
  have heval : ∀ kk : Int, recommend_for_user recLib "u1" kk
      = some (pySlice [(⟨"b1", "A", "Auth", "tech", 1, 1, 1⟩, 4/5),
          (⟨"b2", "B", "Auth", "tech", 1, 1, 0⟩, 7/10)] kk) := by
    intro kk
    rw [recommend_eq_found recLib "u1" ⟨"u1", "Alice", ["tech"], [], []⟩ kk
      (by decide)]
    rw [show recLib.user_book_graph
        = (⟨[("book:b1", []), ("book:b2", []), ("user:u1", [])]⟩ : Graph) from rfl,
      hbfs]
    rw [show scoreCandidates recLib ⟨"u1", "Alice", ["tech"], [], []⟩ "u1"
        [("user:u1", 0)] [] = [] from by
      norm_num [scoreCandidates,
        show strStartsWith "user:u1" "book:" = false from by decide]]
    rw [show fallbackCandidates recLib ⟨"u1", "Alice", ["tech"], [], []⟩
        = [("b1", 4/5), ("b2", 7/10)] from by
      norm_num [fallbackCandidates, recLib, dictUpsert, dictGet,
        show strLower "tech" = "tech" from by decide,
        show ¬ ("b1" : String) = "b2" from by decide]]
    rw [if_pos (show ([] : List (String × ℚ)).isEmpty = true from rfl)]
    rw [show lookupRanked recLib [("b1", 4/5), ("b2", 7/10)]
        = some [(⟨"b1", "A", "Auth", "tech", 1, 1, 1⟩, 4/5),
            (⟨"b2", "B", "Auth", "tech", 1, 1, 0⟩, 7/10)] from by
      norm_num [lookupRanked, recLib, dictGet,
        show ¬ ("b1" : String) = "b2" from by decide]]
    rw [Option.map_some']
    rw [show rankSort [(⟨"b1", "A", "Auth", "tech", 1, 1, 1⟩, (4 : ℚ)/5),
          (⟨"b2", "B", "Auth", "tech", 1, 1, 0⟩, 7/10)]
        = [(⟨"b1", "A", "Auth", "tech", 1, 1, 1⟩, 4/5),
           (⟨"b2", "B", "Auth", "tech", 1, 1, 0⟩, 7/10)] from by
      norm_num [rankSort, rankInsert, rankLE]]
  refine ⟨by norm_num, ?_, ?_, ?_⟩
  · rw [heval (-1)]
    norm_num [pySlice]
  · rw [heval (-1)]
    norm_num [pySlice]
  · rw [heval 0]
    norm_num [pySlice]


end LibraryMS
